import Mathlib

/-
Verification of the distri batch build scheduler (cmd/distri/batch.go).

The Go source is shallowly embedded as executable Lean definitions:

* `Node`, `DGraph`        — the node type (id, name) and the simple directed
                            graph built by `batch` (gonum simple.DirectedGraph
                            is represented by its node list and edge set;
                            edges are pairs of node ids, `(a, b)` meaning
                            "a depends on b", exactly the direction of
                            `g.SetEdge(g.NewEdge(n, byName[dep]))`).
* `mkNodes`, `mkByName`,
  `buildGraph`            — the two descriptor loops of `batch` (batch.go
                            lines 69-117).  The nil-map-lookup panic that the
                            Go code hits when a dependency name has no node
                            (`byName[dep]` is nil and `SetEdge` dereferences
                            it) is modelled as the fatal error
                            `BuildErr.unresolvedDependency`.
* `breakCycles`           — the cycle-breaking block (lines 135-154): if
                            `topo.Sort` fails, every node of a cyclic
                            component loses all of its outgoing edges and the
                            sort is re-attempted exactly once.  `topo.Sort`
                            failing on a simple digraph is equivalent to the
                            existence of a node that reaches itself by a
                            non-empty path, which `unorderableB` decides with
                            a path-length bound of `g.nodes.length` (a
                            shortest cycle never repeats a node).
* `markFailed`            — scheduler.markFailed (lines 242-253).  The Go
                            recursion has no fuel; on the acyclic graphs the
                            scheduler runs on, a fuel of `nodes.length + 1`
                            is always sufficient (proved below), so the
                            fuelled version computes the same cascade.
                            `log.Fatalf` is the error `MFErr.fatalBug`.
* `schedStep`, `runTrace` — one tick of the scheduler goroutine (lines
                            203-226) and a whole run.  The concurrency of the
                            8 workers is abstracted into the choice of which
                            in-flight package (an index into `queued`)
                            completes next; `queued` holds exactly the
                            packages that have been written to the `work`
                            channel and whose `done` result has not yet been
                            consumed.  Every interleaving of the real program
                            corresponds to a choice sequence of this model.
* `distriSucceeds`        — the hard-coded worker body (lines 184-194):
                            success iff the package name is not
                            "libx11-1.6.6" (the random sleep only delays the
                            result and is irrelevant to every outcome).
* `batch`                 — the whole pipeline (construction, cycle
                            resolution, scheduling, summary).

builderdeps (called on line 107) is defined outside the given sources; its
result list is carried verbatim as the `builderDeps` field of a descriptor,
matching the spec's "builder-only dependencies" list.  Nothing below depends
on its internals.
-/

set_option maxRecDepth 4000

namespace Distri

/-- A graph node exactly as in batch.go: an integer id and the business key
`<package>-<version>`. -/
structure Node where
  id : Int
  name : String
deriving DecidableEq, Repr

/-- The directed graph: node list plus edge set (pairs of ids).  An edge
`(a, b)` means "a depends on b" (`SetEdge(NewEdge(n, byName[dep]))`). -/
structure DGraph where
  nodes : List Node
  edges : List (Int × Int)
deriving DecidableEq, Repr

/-- The `built` map of the scheduler, `map[string]bool` in Go, as an
association list whose keys are kept unique by `setB`. -/
abbrev BuiltMap := List (String × Bool)

/-- Go map read with explicit absence: `s.built[name]` exists or not. -/
def lookupB : BuiltMap → String → Option Bool
  | [], _ => none
  | (k, v) :: rest, s => if k = s then some v else lookupB rest s

/-- Go map write: replace the existing entry or append a fresh one. -/
def setB : BuiltMap → String → Bool → BuiltMap
  | [], k, v => [(k, v)]
  | (k', v') :: rest, k, v =>
    if k' = k then (k, v) :: rest else (k', v') :: setB rest k v

/-- The `byName` index, `map[string]*node` in Go. -/
abbrev NameMap := List (String × Node)

def lookupN : NameMap → String → Option Node
  | [], _ => none
  | (k, v) :: rest, s => if k = s then some v else lookupN rest s

def setN : NameMap → String → Node → NameMap
  | [], k, v => [(k, v)]
  | (k', v') :: rest, k, v =>
    if k' = k then (k, v) :: rest else (k', v') :: setN rest k v

/-- `g.From(i)`: the nodes this node depends on (out-neighbors). -/
def outNbrs (g : DGraph) (i : Int) : List Node :=
  g.nodes.filter (fun m => decide ((i, m.id) ∈ g.edges))

/-- `g.To(i)`: the nodes depending on this node (in-neighbors). -/
def inNbrs (g : DGraph) (i : Int) : List Node :=
  g.nodes.filter (fun m => decide ((m.id, i) ∈ g.edges))

/-- scheduler.canBuild (batch.go lines 255-266): all dependencies of the
candidate are marked successfully built (a missing key reads as false). -/
def canBuild (g : DGraph) (built : BuiltMap) (candidate : Node) : Bool :=
  (outNbrs g candidate.id).all (fun m => lookupB built m.name == some true)

/-- The two ways scheduler.markFailed can fail to return: `fatalBug` is the
`log.Fatalf` on a dependent that already succeeded (line 248); `fuelOut` is
an artifact of the fuelled embedding and is proved unreachable whenever the
fuel is at least `nodes.length + 1` on a ranked (acyclic) graph. -/
inductive MFErr where
  | fatalBug
  | fuelOut
deriving DecidableEq, Repr

/-- The loop body of scheduler.markFailed over the list of in-neighbors of
the failed node: check the BUG condition, mark the dependent failed, recurse
into it (`child`), continue with the rest.  The returned list records every
loop-body execution (one entry per visit) in order. -/
def mfStep (child : BuiltMap → Node → Except MFErr (BuiltMap × List String)) :
    BuiltMap → List Node → Except MFErr (BuiltMap × List String)
  | b, [] => .ok (b, [])
  | b, d :: rest =>
    if lookupB b d.name = some true then .error .fatalBug
    else
      match child (setB b d.name false) d with
      | .error e => .error e
      | .ok (b2, v2) =>
        match mfStep child b2 rest with
        | .error e => .error e
        | .ok (b3, v3) => .ok (b3, d.name :: (v2 ++ v3))

/-- scheduler.markFailed (batch.go lines 242-253), fuelled. -/
def markFailed (g : DGraph) : Nat → BuiltMap → Node →
    Except MFErr (BuiltMap × List String)
  | 0, _, _ => .error .fuelOut
  | fuel + 1, b, n => mfStep (markFailed g fuel) b (inNbrs g n.id)

/-- The scheduler state owned by the coordinating goroutine: the packages
dispatched on the `work` channel whose result has not yet been consumed, and
the `built` map. -/
structure SchedState where
  queued : List String
  built : BuiltMap
deriving DecidableEq, Repr

/-- Errors of one scheduler tick.  `cascadeBug` is the `log.Fatalf` abort
inside markFailed; the other two are artifacts (an out-of-range choice, a
`byName` miss — the Go code would dereference nil — and fuel exhaustion). -/
inductive SErr where
  | badIndex
  | missingNode
  | cascadeBug
  | cascadeFuel
deriving DecidableEq, Repr

/-- The fuel handed to markFailed inside a tick; sufficient on every ranked
graph. -/
def schedFuel (g : DGraph) : Nat := g.nodes.length + 1

/-- One scheduler tick (batch.go lines 205-225): consume the result of the
in-flight package at position `i` of `queued`, record it in `built`
(`s.built[result.name] = result.success`), then either cascade the failure
or enqueue every dependent that `canBuild` now accepts. -/
def schedStep (g : DGraph) (byName : NameMap) (succeeds : String → Bool)
    (st : SchedState) (i : Nat) : Except SErr SchedState :=
  match st.queued[i]? with
  | none => .error .badIndex
  | some pkg =>
    let rest := st.queued.eraseIdx i
    let success := succeeds pkg
    let b1 := setB st.built pkg success
    match lookupN byName pkg with
    | none => .error .missingNode
    | some n =>
      if success then
        let ready := (inNbrs g n.id).filter (fun c => canBuild g b1 c)
        .ok ⟨rest ++ ready.map Node.name, b1⟩
      else
        match markFailed g (schedFuel g) b1 n with
        | .error .fatalBug => .error .cascadeBug
        | .error .fuelOut => .error .cascadeFuel
        | .ok (b2, _) => .ok ⟨rest, b2⟩

/-- The initial dispatch (batch.go lines 196-202): every node with no
outgoing edges, i.e. no dependencies, goes onto the work queue. -/
def initState (g : DGraph) : SchedState :=
  ⟨(g.nodes.filter (fun n => (outNbrs g n.id).isEmpty)).map Node.name, []⟩

/-- A whole scheduling run along a list of completion choices. -/
def runTrace (g : DGraph) (byName : NameMap) (succeeds : String → Bool) :
    SchedState → List Nat → Except SErr SchedState
  | st, [] => .ok st
  | st, i :: rest =>
    match schedStep g byName succeeds st i with
    | .error e => .error e
    | .ok st' => runTrace g byName succeeds st' rest

/-- The hard-coded worker body (batch.go line 190): success iff the package
is not "libx11-1.6.6". -/
def distriSucceeds (pkg : String) : Bool := pkg != "libx11-1.6.6"

/-- The final summary (batch.go lines 230-237): number of `true` results,
failures as the rest of the map, total as the size of the map. -/
structure Summary where
  succeeded : Nat
  failed : Nat
  total : Nat
deriving DecidableEq, Repr

def summarize (b : BuiltMap) : Summary :=
  let s := (b.filter (fun kv => kv.2)).length
  ⟨s, b.length - s, b.length⟩

/-- A build descriptor as read from build.textproto: the version and the
three dependency lists (GetDep, builderdeps, GetRuntimeDep). -/
structure Build where
  version : String
  dep : List String
  builderDeps : List String
  runtimeDep : List String
deriving DecidableEq, Repr

/-- The merged dependency set (batch.go lines 106-108). -/
def mergedDeps (b : Build) : List String := b.dep ++ b.builderDeps ++ b.runtimeDep

/-- `<package>-<version>` (batch.go line 84). -/
def nodeName (pkg : String) (b : Build) : String := pkg ++ "-" ++ b.version

/-- First descriptor loop (lines 70-87): one node per descriptor, ids are
the directory indices; nothing rejects or merges name collisions. -/
def mkNodes (ds : List (String × Build)) : List Node :=
  ds.enum.map (fun p => Node.mk (Int.ofNat p.1) (nodeName p.2.1 p.2.2))

/-- `byName[n.name] = n` in insertion order: a later node with the same name
overwrites the earlier one, exactly like the Go map assignment. -/
def mkByName (ds : List (String × Build)) : NameMap :=
  (mkNodes ds).foldl (fun m n => setN m n.name n) []

/-- Fatal failures of graph construction.  Both model nil-pointer panics of
the Go code at `g.SetEdge(g.NewEdge(n, byName[dep]))` (line 115):
`unresolvedDependency` when `byName[dep]` is nil (the spec's taxonomy name
for this condition), `missingOwnNode` when `byName[pkg+"-"+version]` is nil
(never reachable, since the first loop inserts every own name). -/
inductive BuildErr where
  | unresolvedDependency (dep : String)
  | missingOwnNode (name : String)
deriving DecidableEq, Repr

/-- `gonum` SetEdge keeps one copy of an edge. -/
def insertEdge (edges : List (Int × Int)) (e : Int × Int) : List (Int × Int) :=
  if e ∈ edges then edges else edges ++ [e]

/-- Inner dependency loop (lines 111-116): a dependency equal to the
package's own name-version is skipped (`continue`), otherwise the edge to
`byName[dep]` is inserted, and a missing node is fatal. -/
def addDeps (byName : NameMap) (own : String) (n : Node) :
    List String → List (Int × Int) → Except BuildErr (List (Int × Int))
  | [], edges => .ok edges
  | dep :: rest, edges =>
    if dep = own then addDeps byName own n rest edges
    else
      match lookupN byName dep with
      | none => .error (.unresolvedDependency dep)
      | some m => addDeps byName own n rest (insertEdge edges (n.id, m.id))

/-- Second descriptor loop (lines 90-117). -/
def buildGraphEdges (byName : NameMap) :
    List (String × Build) → List (Int × Int) → Except BuildErr (List (Int × Int))
  | [], edges => .ok edges
  | (pkg, b) :: rest, edges =>
    match lookupN byName (nodeName pkg b) with
    | none => .error (.missingOwnNode (nodeName pkg b))
    | some n =>
      match addDeps byName (nodeName pkg b) n (mergedDeps b) edges with
      | .error e => .error e
      | .ok edges' => buildGraphEdges byName rest edges'

/-- The Dependency Graph Builder: both loops of `batch`. -/
def buildGraph (ds : List (String × Build)) : Except BuildErr DGraph :=
  match buildGraphEdges (mkByName ds) ds [] with
  | .error e => .error e
  | .ok es => .ok ⟨mkNodes ds, es⟩

/-- A directed path of at most `fuel` edges from `a` to `b`. -/
def reachesWithin (g : DGraph) : Nat → Int → Int → Bool
  | 0, _, _ => false
  | fuel + 1, a, b =>
    g.edges.any (fun e => e.1 == a && (e.2 == b || reachesWithin g fuel e.2 b))

/-- A node of a cyclic (unorderable) component: it reaches itself by a
non-empty path.  A shortest such path never repeats a node, so
`g.nodes.length` edges always suffice. -/
def cyclicB (g : DGraph) (n : Node) : Bool :=
  reachesWithin g g.nodes.length n.id n.id

/-- `topo.Sort` fails on a simple digraph exactly when some strongly
connected component has more than one node, i.e. some node lies on a
cycle. -/
def unorderableB (g : DGraph) : Bool := g.nodes.any (fun n => cyclicB g n)

/-- The edge removal of the cycle resolver (lines 141-150): every outgoing
edge of every node of a cyclic component is removed. -/
def stripCyclic (g : DGraph) : DGraph :=
  ⟨g.nodes, g.edges.filter (fun e => !(g.nodes.any (fun n => n.id == e.1 && cyclicB g n)))⟩

inductive CycleErr where
  | unbreakable
deriving DecidableEq, Repr

/-- The cycle resolver (lines 135-154): sort, strip, re-sort exactly once,
fatal error if still unorderable. -/
def breakCycles (g : DGraph) : Except CycleErr DGraph :=
  if unorderableB g then
    let g' := stripCyclic g
    if unorderableB g' then .error .unbreakable else .ok g'
  else .ok g

inductive BatchErr where
  | construction (e : BuildErr)
  | unbreakableCycle
  | sched (e : SErr)
deriving DecidableEq, Repr

/-- The whole `batch` pipeline: build the graph, break cycles, run the
scheduler (with the hard-coded worker body), report the summary.  The choice
list resolves the completion order of concurrently running builds. -/
def batch (ds : List (String × Build)) (choices : List Nat) :
    Except BatchErr Summary :=
  match buildGraph ds with
  | .error e => .error (.construction e)
  | .ok g =>
    match breakCycles g with
    | .error _ => .error .unbreakableCycle
    | .ok g' =>
      match runTrace g' (mkByName ds) distriSucceeds (initState g') choices with
      | .error e => .error (.sched e)
      | .ok st => .ok (summarize st.built)

/-- Transitive dependency relation on ids: `Reaches g a b` iff there is a
non-empty directed path from `a` to `b` ("a transitively depends on b";
equivalently "a is a transitive dependent of b" seen from `b`). -/
inductive Reaches (g : DGraph) : Int → Int → Prop where
  | single {a b : Int} : (a, b) ∈ g.edges → Reaches g a b
  | step {a b c : Int} : (a, b) ∈ g.edges → Reaches g b c → Reaches g a c

/-- A topological ranking: the witness that the graph is acyclic.  Every
finite DAG admits one with values below the node count. -/
def ValidRank (g : DGraph) (rank : Int → Nat) : Prop :=
  (∀ n ∈ g.nodes, rank n.id < g.nodes.length) ∧
  (∀ e ∈ g.edges, rank e.2 < rank e.1)

/-- Well-formedness of the scheduler inputs, as established by `batch`:
distinct names, distinct ids, edges between distinct existing nodes, and a
`byName` index consistent with the node list. -/
def SchedWF (g : DGraph) (byName : NameMap) : Prop :=
  (g.nodes.map Node.name).Nodup ∧
  (g.nodes.map Node.id).Nodup ∧
  (∀ e ∈ g.edges, (∃ a ∈ g.nodes, a.id = e.1) ∧ (∃ b ∈ g.nodes, b.id = e.2) ∧ e.1 ≠ e.2) ∧
  (∀ n ∈ g.nodes, lookupN byName n.name = some n) ∧
  (∀ kv ∈ byName, kv.2 ∈ g.nodes ∧ kv.2.name = kv.1)

instance (g : DGraph) (byName : NameMap) : Decidable (SchedWF g byName) := by
  unfold SchedWF; infer_instance

instance (g : DGraph) (rank : Int → Nat) : Decidable (ValidRank g rank) := by
  unfold ValidRank; infer_instance

instance {ε α : Type} [DecidableEq ε] [DecidableEq α] : DecidableEq (Except ε α)
  | .error a, .error b =>
    if h : a = b then .isTrue (by rw [h])
    else .isFalse (by intro hc; cases hc; exact h rfl)
  | .error _, .ok _ => .isFalse (by intro hc; cases hc)
  | .ok _, .error _ => .isFalse (by intro hc; cases hc)
  | .ok a, .ok b =>
    if h : a = b then .isTrue (by rw [h])
    else .isFalse (by intro hc; cases hc; exact h rfl)

/-! ### Association-map lemmas -/

def keysB (b : BuiltMap) : List String := b.map Prod.fst

theorem lookupB_setB_self (b : BuiltMap) (k : String) (v : Bool) :
    lookupB (setB b k v) k = some v := by
  induction b with
  | nil => simp [setB, lookupB]
  | cons kv rest ih =>
    by_cases h : kv.1 = k
    · simp [setB, h, lookupB]
    · simp [setB, h, lookupB, ih]

theorem lookupB_setB_ne (b : BuiltMap) (k k' : String) (v : Bool) (h : k' ≠ k) :
    lookupB (setB b k v) k' = lookupB b k' := by
  have hne : k ≠ k' := Ne.symm h
  induction b with
  | nil => simp [setB, lookupB, hne]
  | cons kv rest ih =>
    by_cases hk : kv.1 = k
    · subst hk
      simp [setB, lookupB, hne]
    · simp only [setB, hk, if_false, lookupB]
      by_cases hk' : kv.1 = k' <;> simp [hk', ih]

theorem mem_setB (b : BuiltMap) (k : String) (v : Bool) :
    ∀ kv ∈ setB b k v, kv = (k, v) ∨ kv ∈ b := by
  induction b with
  | nil =>
    intro kv hkv
    simp [setB] at hkv
    exact Or.inl hkv
  | cons kv0 rest ih =>
    intro kv hkv
    by_cases h : kv0.1 = k
    · simp only [setB, h, if_true] at hkv
      rcases List.mem_cons.1 hkv with h1 | h1
      · exact Or.inl h1
      · exact Or.inr (List.mem_cons_of_mem _ h1)
    · simp only [setB, h, if_false] at hkv
      rcases List.mem_cons.1 hkv with h1 | h1
      · refine Or.inr ?_
        rw [h1]
        exact List.mem_cons_self _ _
      · rcases ih kv h1 with h2 | h2
        · exact Or.inl h2
        · exact Or.inr (List.mem_cons_of_mem _ h2)

theorem keysB_setB (b : BuiltMap) (k : String) (v : Bool) :
    ∀ k' ∈ keysB (setB b k v), k' = k ∨ k' ∈ keysB b := by
  intro k' hk'
  simp only [keysB, List.mem_map] at hk'
  obtain ⟨kv, hkv, hfst⟩ := hk'
  rcases mem_setB b k v kv hkv with h | h
  · left
    rw [← hfst, h]
  · right
    exact List.mem_map.2 ⟨kv, h, hfst⟩

theorem keysB_setB_nodup (b : BuiltMap) (k : String) (v : Bool)
    (h : (keysB b).Nodup) : (keysB (setB b k v)).Nodup := by
  induction b with
  | nil => simp [setB, keysB]
  | cons kv rest ih =>
    simp only [keysB, List.map_cons, List.nodup_cons] at h
    by_cases hk : kv.1 = k
    · simp only [setB, hk, if_true, keysB, List.map_cons, List.nodup_cons]
      exact ⟨hk ▸ h.1, h.2⟩
    · simp only [setB, hk, if_false, keysB, List.map_cons, List.nodup_cons]
      refine ⟨fun hc => ?_, ih h.2⟩
      rcases keysB_setB rest k v kv.1 hc with h3 | h3
      · exact hk h3
      · exact h.1 h3

theorem lookupB_isSome_iff (b : BuiltMap) (k : String) :
    (lookupB b k).isSome = true ↔ k ∈ keysB b := by
  induction b with
  | nil => simp [lookupB, keysB]
  | cons kv rest ih =>
    have hkeys : keysB (kv :: rest) = kv.1 :: keysB rest := rfl
    rw [hkeys, List.mem_cons]
    by_cases h : kv.1 = k
    · simp [lookupB, h]
    · simp only [lookupB, h, if_false]
      rw [ih]
      exact ⟨fun hm => Or.inr hm, fun h1 => h1.elim (fun he => absurd he.symm h) id⟩

theorem length_setB_of_none (b : BuiltMap) (k : String) (v : Bool)
    (h : lookupB b k = none) : (setB b k v).length = b.length + 1 := by
  induction b with
  | nil => simp [setB]
  | cons kv rest ih =>
    by_cases hk : kv.1 = k
    · simp [lookupB, hk] at h
    · simp only [lookupB, hk, if_false] at h
      simp [setB, hk, ih h]

theorem length_setB_of_some (b : BuiltMap) (k : String) (v w : Bool)
    (h : lookupB b k = some w) : (setB b k v).length = b.length := by
  induction b with
  | nil => simp [lookupB] at h
  | cons kv rest ih =>
    by_cases hk : kv.1 = k
    · simp [setB, hk]
    · simp only [lookupB, hk, if_false] at h
      simp [setB, hk, ih h]

theorem length_le_setB (b : BuiltMap) (k : String) (v : Bool) :
    b.length ≤ (setB b k v).length := by
  cases h : lookupB b k with
  | none =>
    rw [length_setB_of_none b k v h]
    omega
  | some w => rw [length_setB_of_some b k v w h]

theorem lookupN_mem (m : NameMap) (k : String) (n : Node)
    (h : lookupN m k = some n) : (k, n) ∈ m := by
  induction m with
  | nil => simp [lookupN] at h
  | cons kv rest ih =>
    by_cases hk : kv.1 = k
    · simp only [lookupN, hk, if_true, Option.some_inj] at h
      have h2 : (k, n) = kv := by rw [← hk, ← h]
      rw [h2]
      exact List.mem_cons_self _ _
    · simp only [lookupN, hk, if_false] at h
      exact List.mem_cons_of_mem _ (ih h)

theorem lookupN_setN_self (m : NameMap) (k : String) (v : Node) :
    lookupN (setN m k v) k = some v := by
  induction m with
  | nil => simp [setN, lookupN]
  | cons kv rest ih =>
    by_cases h : kv.1 = k
    · simp [setN, h, lookupN]
    · simp [setN, h, lookupN, ih]

theorem lookupN_setN_ne (m : NameMap) (k k' : String) (v : Node) (h : k' ≠ k) :
    lookupN (setN m k v) k' = lookupN m k' := by
  have hne : k ≠ k' := Ne.symm h
  induction m with
  | nil => simp [setN, lookupN, hne]
  | cons kv rest ih =>
    by_cases hk : kv.1 = k
    · subst hk
      simp [setN, lookupN, hne]
    · simp only [setN, hk, if_false, lookupN]
      by_cases hk' : kv.1 = k' <;> simp [hk', ih]

/-! ### Graph membership lemmas -/

theorem mem_outNbrs (g : DGraph) (i : Int) (m : Node) :
    m ∈ outNbrs g i ↔ m ∈ g.nodes ∧ (i, m.id) ∈ g.edges := by
  simp [outNbrs, List.mem_filter]

theorem mem_inNbrs (g : DGraph) (i : Int) (m : Node) :
    m ∈ inNbrs g i ↔ m ∈ g.nodes ∧ (m.id, i) ∈ g.edges := by
  simp [inNbrs, List.mem_filter]

theorem canBuild_iff (g : DGraph) (b : BuiltMap) (c : Node) :
    canBuild g b c = true ↔ ∀ d ∈ outNbrs g c.id, lookupB b d.name = some true := by
  simp [canBuild, List.all_eq_true]

/-! ### Reachability and rank lemmas -/

theorem Reaches.append_edge {g : DGraph} {a b c : Int}
    (h : Reaches g a b) (he : (b, c) ∈ g.edges) : Reaches g a c := by
  induction h with
  | single h1 => exact Reaches.step h1 (Reaches.single he)
  | step h1 _ ih => exact Reaches.step h1 (ih he)

/-- Last-edge decomposition of a path. -/
theorem reaches_last {g : DGraph} {a c : Int} (h : Reaches g a c) :
    ∃ b, (b, c) ∈ g.edges ∧ (a = b ∨ Reaches g a b) := by
  induction h with
  | single h1 => exact ⟨_, h1, Or.inl rfl⟩
  | step h1 _ ih =>
    obtain ⟨b', hb', hcase⟩ := ih
    rcases hcase with h2 | h2
    · exact ⟨b', hb', Or.inr (h2 ▸ Reaches.single h1)⟩
    · exact ⟨b', hb', Or.inr (Reaches.step h1 h2)⟩

theorem rank_lt_of_reaches {g : DGraph} {rank : Int → Nat}
    (hr : ValidRank g rank) {a b : Int} (h : Reaches g a b) : rank b < rank a := by
  induction h with
  | single h1 => exact hr.2 _ h1
  | step h1 _ ih => exact lt_trans ih (hr.2 _ h1)

theorem no_self_reach {g : DGraph} {rank : Int → Nat}
    (hr : ValidRank g rank) {a : Int} : ¬Reaches g a a := fun h =>
  lt_irrefl _ (rank_lt_of_reaches hr h)

/-- A name determines the node when node names are distinct. -/
theorem name_inj {g : DGraph} (hnd : (g.nodes.map Node.name).Nodup)
    {a b : Node} (ha : a ∈ g.nodes) (hb : b ∈ g.nodes) (h : a.name = b.name) :
    a = b :=
  List.inj_on_of_nodup_map hnd ha hb h

theorem id_inj {g : DGraph} (hnd : (g.nodes.map Node.id).Nodup)
    {a b : Node} (ha : a ∈ g.nodes) (hb : b ∈ g.nodes) (h : a.id = b.id) :
    a = b :=
  List.inj_on_of_nodup_map hnd ha hb h

/-! ### Queue helper -/

/-- Removing the element at a valid index is removing one copy of it. -/
theorem perm_cons_eraseIdx :
    ∀ (l : List String) (i : Nat) (a : String), l[i]? = some a →
      l.Perm (a :: l.eraseIdx i)
  | [], i, a, h => by simp at h
  | x :: xs, 0, a, h => by
    simp only [List.getElem?_cons_zero, Option.some_inj] at h
    rw [h, List.eraseIdx_cons_zero]
  | x :: xs, i + 1, a, h => by
    simp only [List.getElem?_cons_succ] at h
    have ih := perm_cons_eraseIdx xs i a h
    rw [List.eraseIdx_cons_succ]
    exact (List.Perm.cons x ih).trans (List.Perm.swap a x (xs.eraseIdx i))

/-! ### markFailed machinery -/

theorem mfStep_nil (child : BuiltMap → Node → Except MFErr (BuiltMap × List String))
    (b : BuiltMap) : mfStep child b [] = .ok (b, []) := rfl

theorem mfStep_cons_ok {child : BuiltMap → Node → Except MFErr (BuiltMap × List String)}
    {b : BuiltMap} {d : Node} {rest : List Node} {r : BuiltMap × List String}
    (h : mfStep child b (d :: rest) = .ok r) :
    lookupB b d.name ≠ some true ∧
    ∃ r2 r3, child (setB b d.name false) d = .ok r2 ∧
      mfStep child r2.1 rest = .ok r3 ∧ r = (r3.1, d.name :: (r2.2 ++ r3.2)) := by
  by_cases hc : lookupB b d.name = some true
  · rw [mfStep, if_pos hc] at h
    cases h
  · rw [mfStep, if_neg hc] at h
    refine ⟨hc, ?_⟩
    cases hch : child (setB b d.name false) d with
    | error e =>
      rw [hch] at h
      cases h
    | ok r2 =>
      obtain ⟨b2, v2⟩ := r2
      simp only [hch] at h
      cases hrest : mfStep child b2 rest with
      | error e =>
        rw [hrest] at h
        cases h
      | ok r3 =>
        obtain ⟨b3, v3⟩ := r3
        simp only [hrest] at h
        cases h
        exact ⟨(b2, v2), (b3, v3), rfl, hrest, rfl⟩

theorem mfStep_cons_eq {child : BuiltMap → Node → Except MFErr (BuiltMap × List String)}
    {b : BuiltMap} {d : Node} {rest : List Node} {r2 r3 : BuiltMap × List String}
    (hc : lookupB b d.name ≠ some true)
    (h2 : child (setB b d.name false) d = .ok r2)
    (h3 : mfStep child r2.1 rest = .ok r3) :
    mfStep child b (d :: rest) = .ok (r3.1, d.name :: (r2.2 ++ r3.2)) := by
  obtain ⟨b2, v2⟩ := r2
  obtain ⟨b3, v3⟩ := r3
  rw [mfStep, if_neg hc]
  simp only [h2, h3]

theorem markFailed_succ (g : DGraph) (fuel : Nat) (b : BuiltMap) (n : Node) :
    markFailed g (fuel + 1) b n = mfStep (markFailed g fuel) b (inNbrs g n.id) := rfl

/-- The cascade only writes `false`: every key either keeps its input value or
ends at `some false`. -/
def WritesFalse (bIn bOut : BuiltMap) : Prop :=
  ∀ k, lookupB bOut k = lookupB bIn k ∨ lookupB bOut k = some false

theorem writesFalse_refl (b : BuiltMap) : WritesFalse b b := fun _ => Or.inl rfl

theorem writesFalse_trans {b1 b2 b3 : BuiltMap}
    (h1 : WritesFalse b1 b2) (h2 : WritesFalse b2 b3) : WritesFalse b1 b3 := by
  intro k
  rcases h2 k with h | h
  · rw [h]
    exact h1 k
  · exact Or.inr h

theorem writesFalse_setB (b : BuiltMap) (k : String) :
    WritesFalse b (setB b k false) := by
  intro k'
  by_cases h : k' = k
  · subst h
    exact Or.inr (lookupB_setB_self b k' false)
  · exact Or.inl (lookupB_setB_ne b k k' false h)

theorem mfStep_writesFalse
    {child : BuiltMap → Node → Except MFErr (BuiltMap × List String)}
    (hchild : ∀ b d r, child b d = .ok r → WritesFalse b r.1) :
    ∀ (l : List Node) (b : BuiltMap) (r : BuiltMap × List String),
      mfStep child b l = .ok r → WritesFalse b r.1
  | [], b, r, h => by
    rw [mfStep_nil] at h
    cases h
    exact writesFalse_refl b
  | d :: rest, b, r, h => by
    obtain ⟨hc, r2, r3, h2, h3, hr⟩ := mfStep_cons_ok h
    subst hr
    exact writesFalse_trans (writesFalse_setB b d.name)
      (writesFalse_trans (hchild _ _ _ h2) (mfStep_writesFalse hchild rest r2.1 r3 h3))

theorem markFailed_writesFalse (g : DGraph) :
    ∀ (fuel : Nat) (b : BuiltMap) (n : Node) (r : BuiltMap × List String),
      markFailed g fuel b n = .ok r → WritesFalse b r.1
  | 0, _, _, _, h => by cases h
  | fuel + 1, b, n, r, h => by
    rw [markFailed_succ] at h
    exact mfStep_writesFalse (fun b' d r' h' => markFailed_writesFalse g fuel b' d r' h')
      (inNbrs g n.id) b r h

/-- `true` entries survive the cascade (overwriting one is the fatal BUG
branch, so an `ok` result never did). -/
def TrueMono (bIn bOut : BuiltMap) : Prop :=
  ∀ k, lookupB bIn k = some true → lookupB bOut k = some true

theorem trueMono_refl (b : BuiltMap) : TrueMono b b := fun _ h => h

theorem trueMono_trans {b1 b2 b3 : BuiltMap}
    (h1 : TrueMono b1 b2) (h2 : TrueMono b2 b3) : TrueMono b1 b3 :=
  fun k h => h2 k (h1 k h)

theorem trueMono_setB_guard {b : BuiltMap} {k : String}
    (hc : lookupB b k ≠ some true) : TrueMono b (setB b k false) := by
  intro k' h
  by_cases hk : k' = k
  · subst hk
    exact absurd h hc
  · rw [lookupB_setB_ne b k k' false hk]
    exact h

theorem mfStep_trueMono
    {child : BuiltMap → Node → Except MFErr (BuiltMap × List String)}
    (hchild : ∀ b d r, child b d = .ok r → TrueMono b r.1) :
    ∀ (l : List Node) (b : BuiltMap) (r : BuiltMap × List String),
      mfStep child b l = .ok r → TrueMono b r.1
  | [], b, r, h => by
    rw [mfStep_nil] at h
    cases h
    exact trueMono_refl b
  | d :: rest, b, r, h => by
    obtain ⟨hc, r2, r3, h2, h3, hr⟩ := mfStep_cons_ok h
    subst hr
    exact trueMono_trans (trueMono_setB_guard hc)
      (trueMono_trans (hchild _ _ _ h2) (mfStep_trueMono hchild rest r2.1 r3 h3))

theorem markFailed_trueMono (g : DGraph) :
    ∀ (fuel : Nat) (b : BuiltMap) (n : Node) (r : BuiltMap × List String),
      markFailed g fuel b n = .ok r → TrueMono b r.1
  | 0, _, _, _, h => by cases h
  | fuel + 1, b, n, r, h => by
    rw [markFailed_succ] at h
    exact mfStep_trueMono (fun b' d r' h' => markFailed_trueMono g fuel b' d r' h')
      (inNbrs g n.id) b r h

/-- Every change made by a cascade from target `tgt` is a `false` mark on the
name of a transitive dependent of `tgt`. -/
def MarksOnly (g : DGraph) (tgt : Int) (bIn bOut : BuiltMap) : Prop :=
  ∀ k, lookupB bOut k = lookupB bIn k ∨
    (lookupB bOut k = some false ∧ ∃ x ∈ g.nodes, x.name = k ∧ Reaches g x.id tgt)

theorem marksOnly_refl (g : DGraph) (tgt : Int) (b : BuiltMap) :
    MarksOnly g tgt b b := fun _ => Or.inl rfl

theorem marksOnly_trans {g : DGraph} {tgt : Int} {b1 b2 b3 : BuiltMap}
    (h1 : MarksOnly g tgt b1 b2) (h2 : MarksOnly g tgt b2 b3) :
    MarksOnly g tgt b1 b3 := by
  intro k
  rcases h2 k with h | h
  · rw [h]
    exact h1 k
  · exact Or.inr h

theorem marksOnly_weaken {g : DGraph} {d tgt : Int} {b1 b2 : BuiltMap}
    (h : MarksOnly g d b1 b2) (he : (d, tgt) ∈ g.edges) :
    MarksOnly g tgt b1 b2 := by
  intro k
  rcases h k with h1 | ⟨h1, x, hx, hname, hre⟩
  · exact Or.inl h1
  · exact Or.inr ⟨h1, x, hx, hname, hre.append_edge he⟩

theorem marksOnly_setB {g : DGraph} {tgt : Int} {d : Node} (b : BuiltMap)
    (hd : d ∈ g.nodes) (he : (d.id, tgt) ∈ g.edges) :
    MarksOnly g tgt b (setB b d.name false) := by
  intro k
  by_cases hk : k = d.name
  · refine Or.inr ⟨?_, d, hd, hk.symm, Reaches.single he⟩
    rw [hk]
    exact lookupB_setB_self b d.name false
  · exact Or.inl (lookupB_setB_ne b d.name k false hk)

theorem mfStep_marksOnly {g : DGraph} {tgt : Int}
    {child : BuiltMap → Node → Except MFErr (BuiltMap × List String)}
    (hchild : ∀ b d r, child b d = .ok r → MarksOnly g d.id b r.1) :
    ∀ (l : List Node), (∀ d ∈ l, d ∈ g.nodes ∧ (d.id, tgt) ∈ g.edges) →
      ∀ (b : BuiltMap) (r : BuiltMap × List String),
        mfStep child b l = .ok r → MarksOnly g tgt b r.1
  | [], _, b, r, h => by
    rw [mfStep_nil] at h
    cases h
    exact marksOnly_refl g tgt b
  | d :: rest, hl, b, r, h => by
    obtain ⟨hc, r2, r3, h2, h3, hr⟩ := mfStep_cons_ok h
    subst hr
    obtain ⟨hd, he⟩ := hl d (List.mem_cons_self d rest)
    have hA : MarksOnly g tgt b (setB b d.name false) := marksOnly_setB b hd he
    have hB : MarksOnly g tgt (setB b d.name false) r2.1 :=
      marksOnly_weaken (hchild _ _ _ h2) he
    have hC : MarksOnly g tgt r2.1 r3.1 :=
      mfStep_marksOnly hchild rest
        (fun d' hd' => hl d' (List.mem_cons_of_mem d hd')) r2.1 r3 h3
    exact marksOnly_trans hA (marksOnly_trans hB hC)

theorem markFailed_marksOnly (g : DGraph) :
    ∀ (fuel : Nat) (b : BuiltMap) (n : Node) (r : BuiltMap × List String),
      markFailed g fuel b n = .ok r → MarksOnly g n.id b r.1
  | 0, _, _, _, h => by cases h
  | fuel + 1, b, n, r, h => by
    rw [markFailed_succ] at h
    exact mfStep_marksOnly
      (fun b' d r' h' => markFailed_marksOnly g fuel b' d r' h')
      (inNbrs g n.id) (fun d hd => (mem_inNbrs g n.id d).1 hd) b r h

/-- Element lemma for completeness: once some `d` in the processed list covers
`x` (same name, or `x` transitively depends on `d`), the final map marks
`x.name` failed. -/
theorem mfStep_marks {g : DGraph}
    {child : BuiltMap → Node → Except MFErr (BuiltMap × List String)}
    (hchildW : ∀ b d r, child b d = .ok r → WritesFalse b r.1)
    (hchildC : ∀ b d r, child b d = .ok r →
      ∀ x ∈ g.nodes, Reaches g x.id d.id → lookupB r.1 x.name = some false) :
    ∀ (l : List Node) (b : BuiltMap) (r : BuiltMap × List String),
      mfStep child b l = .ok r → ∀ d ∈ l, ∀ x ∈ g.nodes,
        (x.name = d.name ∨ Reaches g x.id d.id) →
        lookupB r.1 x.name = some false
  | [], _, _, _, d, hd, _, _, _ => absurd hd (List.not_mem_nil d)
  | d0 :: rest, b, r, h, d, hd, x, hx, hcover => by
    obtain ⟨hc, r2, r3, h2, h3, hr⟩ := mfStep_cons_ok h
    subst hr
    rcases List.mem_cons.1 hd with hd0 | hdrest
    · subst hd0
      have hmid : lookupB r2.1 x.name = some false := by
        rcases hcover with hn | hre
        · rcases hchildW _ _ _ h2 x.name with hsame | hfalse
          · rw [hsame, hn]
            exact lookupB_setB_self b d.name false
          · exact hfalse
        · exact hchildC _ _ _ h2 x hx hre
      rcases mfStep_writesFalse hchildW rest r2.1 r3 h3 x.name with hsame | hfalse
      · rw [hsame]
        exact hmid
      · exact hfalse
    · exact mfStep_marks hchildW hchildC rest r2.1 r3 h3 d hdrest x hx hcover

/-- Completeness of the cascade: an `ok` run marks every transitive dependent
of the failed node. -/
theorem markFailed_marksAll (g : DGraph)
    (hEdges : ∀ e ∈ g.edges, ∃ a ∈ g.nodes, a.id = e.1)
    (hid : (g.nodes.map Node.id).Nodup) :
    ∀ (fuel : Nat) (b : BuiltMap) (n : Node) (r : BuiltMap × List String),
      markFailed g fuel b n = .ok r →
      ∀ x ∈ g.nodes, Reaches g x.id n.id → lookupB r.1 x.name = some false
  | 0, _, _, _, h => by cases h
  | fuel + 1, b, n, r, h => by
    rw [markFailed_succ] at h
    intro x hx hre
    obtain ⟨bid, hbe, hcase⟩ := reaches_last hre
    obtain ⟨a, ha, haid⟩ := hEdges _ hbe
    have hain : a ∈ inNbrs g n.id := (mem_inNbrs g n.id a).2 ⟨ha, haid ▸ hbe⟩
    refine mfStep_marks
      (fun b' d r' h' => markFailed_writesFalse g fuel b' d r' h')
      (fun b' d r' h' => markFailed_marksAll g hEdges hid fuel b' d r' h')
      (inNbrs g n.id) b r h a hain x hx ?_
    rcases hcase with hxb | hxb
    · left
      have : x = a := id_inj hid hx ha (by rw [haid, ← hxb])
      rw [this]
    · right
      rw [haid]
      exact hxb

/-- The fuelled embedding never runs out of fuel when the fuel dominates the
rank gap. -/
theorem mfStep_no_fuelOut
    {child : BuiltMap → Node → Except MFErr (BuiltMap × List String)} :
    ∀ (l : List Node), (∀ b d, d ∈ l → child b d ≠ .error .fuelOut) →
      ∀ (b : BuiltMap), mfStep child b l ≠ .error .fuelOut
  | [], _, b => by
    rw [mfStep_nil]
    intro h
    cases h
  | d :: rest, hchild, b => by
    intro h
    rw [mfStep] at h
    by_cases hc : lookupB b d.name = some true
    · rw [if_pos hc] at h
      cases h
    · rw [if_neg hc] at h
      cases hch : child (setB b d.name false) d with
      | error e =>
        rw [hch] at h
        cases e with
        | fatalBug => simp at h
        | fuelOut => exact absurd hch (hchild _ d (List.mem_cons_self d rest))
      | ok r2 =>
        obtain ⟨b2, v2⟩ := r2
        rw [hch] at h
        dsimp only at h
        cases hrest : mfStep child b2 rest with
        | error e =>
          rw [hrest] at h
          cases e with
          | fatalBug => simp at h
          | fuelOut =>
            exact absurd hrest (mfStep_no_fuelOut rest
              (fun b' d' hd' => hchild b' d' (List.mem_cons_of_mem d hd')) b2)
        | ok r3 =>
          obtain ⟨b3, v3⟩ := r3
          rw [hrest] at h
          simp at h

theorem markFailed_no_fuelOut (g : DGraph) {rank : Int → Nat}
    (hrank : ValidRank g rank) :
    ∀ (fuel : Nat) (b : BuiltMap) (n : Node), n ∈ g.nodes →
      g.nodes.length + 1 ≤ fuel + rank n.id →
      markFailed g fuel b n ≠ .error .fuelOut
  | 0, _, n, hn, hfuel => absurd (hrank.1 n hn) (by omega)
  | fuel + 1, b, n, hn, hfuel => by
    rw [markFailed_succ]
    refine mfStep_no_fuelOut (inNbrs g n.id) (fun b' d hd => ?_) b
    obtain ⟨hd, he⟩ := (mem_inNbrs g n.id d).1 hd
    have hlt : rank n.id < rank d.id := hrank.2 _ he
    exact markFailed_no_fuelOut g hrank fuel b' d hd (by omega)

/-- The cascade returns `ok` whenever no transitive dependent of the target
is already marked succeeded (the only source of the BUG abort) and the fuel
dominates the rank gap. -/
theorem mfStep_ok {g : DGraph} {tgt : Int}
    {child : BuiltMap → Node → Except MFErr (BuiltMap × List String)} :
    ∀ (l : List Node), (∀ d ∈ l, d ∈ g.nodes ∧ (d.id, tgt) ∈ g.edges) →
      (∀ b' d, d ∈ l →
        (∀ x ∈ g.nodes, Reaches g x.id d.id → lookupB b' x.name ≠ some true) →
        ∃ r, child b' d = .ok r) →
      (∀ b' d r, child b' d = .ok r → WritesFalse b' r.1) →
      ∀ (b : BuiltMap),
        (∀ x ∈ g.nodes, Reaches g x.id tgt → lookupB b x.name ≠ some true) →
        ∃ r, mfStep child b l = .ok r
  | [], _, _, _, b, _ => ⟨(b, []), mfStep_nil child b⟩
  | d :: rest, hl, hchildOk, hchildW, b, hNoTrue => by
    obtain ⟨hd, he⟩ := hl d (List.mem_cons_self d rest)
    have hc : lookupB b d.name ≠ some true :=
      hNoTrue d hd (Reaches.single he)
    have hpre : ∀ x ∈ g.nodes, Reaches g x.id d.id →
        lookupB (setB b d.name false) x.name ≠ some true := by
      intro x hx hre
      by_cases hk : x.name = d.name
      · rw [hk, lookupB_setB_self]
        simp
      · rw [lookupB_setB_ne b d.name x.name false hk]
        exact hNoTrue x hx (hre.append_edge he)
    obtain ⟨r2, hr2⟩ := hchildOk (setB b d.name false) d (List.mem_cons_self d rest) hpre
    have hNoTrue2 : ∀ x ∈ g.nodes, Reaches g x.id tgt →
        lookupB r2.1 x.name ≠ some true := by
      intro x hx hre
      rcases hchildW _ _ _ hr2 x.name with hsame | hfalse
      · rw [hsame]
        by_cases hk : x.name = d.name
        · rw [hk, lookupB_setB_self]
          simp
        · rw [lookupB_setB_ne b d.name x.name false hk]
          exact hNoTrue x hx hre
      · rw [hfalse]
        simp
    obtain ⟨r3, hr3⟩ := mfStep_ok rest
      (fun d' hd' => hl d' (List.mem_cons_of_mem d hd'))
      (fun b' d' hd' hp => hchildOk b' d' (List.mem_cons_of_mem d hd') hp)
      hchildW r2.1 hNoTrue2
    exact ⟨(r3.1, d.name :: (r2.2 ++ r3.2)), mfStep_cons_eq hc hr2 hr3⟩

theorem markFailed_ok (g : DGraph) {rank : Int → Nat} (hrank : ValidRank g rank) :
    ∀ (fuel : Nat) (b : BuiltMap) (n : Node), n ∈ g.nodes →
      g.nodes.length + 1 ≤ fuel + rank n.id →
      (∀ x ∈ g.nodes, Reaches g x.id n.id → lookupB b x.name ≠ some true) →
      ∃ r, markFailed g fuel b n = .ok r
  | 0, _, n, hn, hfuel, _ => absurd (hrank.1 n hn) (by omega)
  | fuel + 1, b, n, hn, hfuel, hNoTrue => by
    rw [markFailed_succ]
    refine mfStep_ok (inNbrs g n.id)
      (fun d hd => (mem_inNbrs g n.id d).1 hd)
      (fun b' d hd hp => ?_)
      (fun b' d r h => markFailed_writesFalse g fuel b' d r h)
      b hNoTrue
    obtain ⟨hd, he⟩ := (mem_inNbrs g n.id d).1 hd
    have hlt : rank n.id < rank d.id := hrank.2 _ he
    exact markFailed_ok g hrank fuel b' d hd (by omega) hp

/-- Key bookkeeping of the cascade: new keys are node names, key uniqueness
is preserved and the map never shrinks. -/
def KeysOK (g : DGraph) (bIn bOut : BuiltMap) : Prop :=
  ((keysB bIn).Nodup → (keysB bOut).Nodup) ∧
  (∀ k ∈ keysB bOut, k ∈ keysB bIn ∨ ∃ x ∈ g.nodes, x.name = k) ∧
  bIn.length ≤ bOut.length

theorem keysOK_refl (g : DGraph) (b : BuiltMap) : KeysOK g b b :=
  ⟨id, fun k hk => Or.inl hk, le_refl _⟩

theorem keysOK_trans {g : DGraph} {b1 b2 b3 : BuiltMap}
    (h1 : KeysOK g b1 b2) (h2 : KeysOK g b2 b3) : KeysOK g b1 b3 := by
  refine ⟨fun h => h2.1 (h1.1 h), fun k hk => ?_, le_trans h1.2.2 h2.2.2⟩
  rcases h2.2.1 k hk with h | h
  · exact h1.2.1 k h
  · exact Or.inr h

theorem keysOK_setB {g : DGraph} {d : Node} (b : BuiltMap) (v : Bool)
    (hd : d ∈ g.nodes) : KeysOK g b (setB b d.name v) := by
  refine ⟨keysB_setB_nodup b d.name v, fun k hk => ?_, length_le_setB b d.name v⟩
  rcases keysB_setB b d.name v k hk with h | h
  · exact Or.inr ⟨d, hd, h.symm⟩
  · exact Or.inl h

theorem mfStep_keysOK {g : DGraph}
    {child : BuiltMap → Node → Except MFErr (BuiltMap × List String)}
    (hchild : ∀ b d r, child b d = .ok r → d ∈ g.nodes → KeysOK g b r.1) :
    ∀ (l : List Node), (∀ d ∈ l, d ∈ g.nodes) →
      ∀ (b : BuiltMap) (r : BuiltMap × List String),
        mfStep child b l = .ok r → KeysOK g b r.1
  | [], _, b, r, h => by
    rw [mfStep_nil] at h
    cases h
    exact keysOK_refl g b
  | d :: rest, hl, b, r, h => by
    obtain ⟨hc, r2, r3, h2, h3, hr⟩ := mfStep_cons_ok h
    subst hr
    have hd : d ∈ g.nodes := hl d (List.mem_cons_self d rest)
    have hA : KeysOK g b (setB b d.name false) := keysOK_setB b false hd
    have hB : KeysOK g (setB b d.name false) r2.1 := hchild _ _ _ h2 hd
    have hC : KeysOK g r2.1 r3.1 :=
      mfStep_keysOK hchild rest (fun d' hd' => hl d' (List.mem_cons_of_mem d hd'))
        r2.1 r3 h3
    exact keysOK_trans hA (keysOK_trans hB hC)

theorem markFailed_keysOK (g : DGraph) :
    ∀ (fuel : Nat) (b : BuiltMap) (n : Node) (r : BuiltMap × List String),
      markFailed g fuel b n = .ok r → KeysOK g b r.1
  | 0, _, _, _, h => by cases h
  | fuel + 1, b, n, r, h => by
    rw [markFailed_succ] at h
    exact mfStep_keysOK
      (fun b' d r' h' _ => markFailed_keysOK g fuel b' d r' h')
      (inNbrs g n.id) (fun d hd => ((mem_inNbrs g n.id d).1 hd).1) b r h

/-! ### The scheduler invariant -/

/-- Invariant of every state the scheduling loop can reach.  `queued` holds
the dispatched-but-unfinished packages; `built` the terminal outcomes. -/
structure Inv (g : DGraph) (succeeds : String → Bool) (st : SchedState) : Prop where
  qNodup : st.queued.Nodup
  qNodes : ∀ q ∈ st.queued, ∃ n ∈ g.nodes, n.name = q
  kNodup : (keysB st.built).Nodup
  kNodes : ∀ k ∈ keysB st.built, ∃ n ∈ g.nodes, n.name = k
  i1a : ∀ q ∈ st.queued, lookupB st.built q = none
  i1b : ∀ n ∈ g.nodes, n.name ∈ st.queued →
    ∀ d ∈ outNbrs g n.id, lookupB st.built d.name = some true
  kTrue : ∀ n ∈ g.nodes, lookupB st.built n.name = some true →
    succeeds n.name = true
  i2 : ∀ n ∈ g.nodes, lookupB st.built n.name = some true →
    ∀ d ∈ outNbrs g n.id, lookupB st.built d.name = some true
  jDep : ∀ n ∈ g.nodes, lookupB st.built n.name = some false →
    ∀ m ∈ inNbrs g n.id, lookupB st.built m.name = some false
  fDep : ∀ n ∈ g.nodes, lookupB st.built n.name = some false →
    (∃ d ∈ outNbrs g n.id, lookupB st.built d.name = some false) ∨
    (∀ d ∈ outNbrs g n.id, lookupB st.built d.name = some true)
  pr : ∀ n ∈ g.nodes, (lookupB st.built n.name).isSome = true ∨
    n.name ∈ st.queued ∨ ∃ d ∈ outNbrs g n.id, lookupB st.built d.name = none

theorem byName_sound {g : DGraph} {byName : NameMap} (hwf : SchedWF g byName)
    {pkg : String} {n : Node} (h : lookupN byName pkg = some n) :
    n ∈ g.nodes ∧ n.name = pkg :=
  hwf.2.2.2.2 _ (lookupN_mem byName pkg n h)

/-- A chain of `true` marks follows every dependency path. -/
theorem true_chain {g : DGraph} {byName : NameMap} {succeeds : String → Bool}
    {st : SchedState} (hwf : SchedWF g byName) (hinv : Inv g succeeds st) :
    ∀ {i j : Int}, Reaches g i j → ∀ x ∈ g.nodes, x.id = i →
      lookupB st.built x.name = some true →
      ∃ y ∈ g.nodes, y.id = j ∧ lookupB st.built y.name = some true := by
  intro i j hre
  induction hre with
  | single he =>
    intro x hx hxi hxt
    obtain ⟨_, ⟨y, hy, hyid⟩, _⟩ := hwf.2.2.1 _ he
    refine ⟨y, hy, hyid, ?_⟩
    exact hinv.i2 x hx hxt y ((mem_outNbrs g x.id y).2 ⟨hy, by rw [hxi, hyid]; exact he⟩)
  | step he _ ih =>
    intro x hx hxi hxt
    obtain ⟨_, ⟨m, hm, hmid⟩, _⟩ := hwf.2.2.1 _ he
    have hmt : lookupB st.built m.name = some true :=
      hinv.i2 x hx hxt m ((mem_outNbrs g x.id m).2 ⟨hm, by rw [hxi, hmid]; exact he⟩)
    exact ih m hm hmid hmt

/-- Transitivity of `i2`: a succeeded node's transitive dependencies all
succeeded. -/
theorem i2_trans {g : DGraph} {byName : NameMap} {succeeds : String → Bool}
    {st : SchedState} (hwf : SchedWF g byName) (hinv : Inv g succeeds st)
    {x y : Node} (hx : x ∈ g.nodes) (hy : y ∈ g.nodes)
    (hre : Reaches g x.id y.id) (hxt : lookupB st.built x.name = some true) :
    lookupB st.built y.name = some true := by
  obtain ⟨y', hy', hid, ht⟩ := true_chain hwf hinv hre x hx rfl hxt
  have : y' = y := id_inj hwf.2.1 hy' hy hid
  rw [← this]
  exact ht

/-- A dispatched package's transitive dependencies are all marked `true`. -/
theorem queued_reach_true {g : DGraph} {byName : NameMap}
    {succeeds : String → Bool} {st : SchedState}
    (hwf : SchedWF g byName) (hinv : Inv g succeeds st) {m p : Node}
    (hm : m ∈ g.nodes) (hq : m.name ∈ st.queued) (hp : p ∈ g.nodes)
    (hre : Reaches g m.id p.id) : lookupB st.built p.name = some true := by
  cases hre with
  | single he =>
    exact hinv.i1b m hm hq p ((mem_outNbrs g m.id p).2 ⟨hp, he⟩)
  | step he hre' =>
    obtain ⟨_, ⟨xb, hxb, hxbid⟩, _⟩ := hwf.2.2.1 _ he
    have hxbt : lookupB st.built xb.name = some true :=
      hinv.i1b m hm hq xb ((mem_outNbrs g m.id xb).2 ⟨hxb, by rw [hxbid]; exact he⟩)
    obtain ⟨y, hy, hid, ht⟩ := true_chain hwf hinv hre' xb hxb hxbid hxbt
    have : y = p := id_inj hwf.2.1 hy hp hid
    rw [← this]
    exact ht

theorem inv_init {g : DGraph} {byName : NameMap} {succeeds : String → Bool}
    (hwf : SchedWF g byName) : Inv g succeeds (initState g) := by
  have hsub : List.Sublist (g.nodes.filter (fun n => (outNbrs g n.id).isEmpty)) g.nodes :=
    List.filter_sublist g.nodes
  have hqchar : ∀ q ∈ (initState g).queued,
      ∃ n ∈ g.nodes, n.name = q ∧ (outNbrs g n.id).isEmpty = true := by
    intro q hq
    simp only [initState, List.mem_map, List.mem_filter] at hq
    obtain ⟨n, ⟨hn, hemp⟩, hname⟩ := hq
    exact ⟨n, hn, hname, hemp⟩
  refine ⟨?_, ?_, ?_, ?_, ?_, ?_, ?_, ?_, ?_, ?_, ?_⟩
  · exact ((hsub.map Node.name).nodup hwf.1)
  · intro q hq
    obtain ⟨n, hn, hname, _⟩ := hqchar q hq
    exact ⟨n, hn, hname⟩
  · simp [initState, keysB]
  · simp [initState, keysB]
  · intro q _
    rfl
  · intro n hn hq d hd
    obtain ⟨m, hm, hname, hemp⟩ := hqchar n.name hq
    have : m = n := name_inj hwf.1 hm hn hname
    subst this
    rw [List.isEmpty_iff] at hemp
    rw [hemp] at hd
    cases hd
  · intro n _ h
    simp [initState, lookupB] at h
  · intro n _ h
    simp [initState, lookupB] at h
  · intro n _ h
    simp [initState, lookupB] at h
  · intro n _ h
    simp [initState, lookupB] at h
  · intro n hn
    cases hemp : outNbrs g n.id with
    | nil =>
      refine Or.inr (Or.inl ?_)
      simp only [initState, List.mem_map]
      refine ⟨n, List.mem_filter.2 ⟨hn, ?_⟩, rfl⟩
      rw [hemp]
      rfl
    | cons d rest =>
      exact Or.inr (Or.inr ⟨d, List.mem_cons_self d rest, rfl⟩)

theorem schedStep_ok_inv {g : DGraph} {byName : NameMap} {succeeds : String → Bool}
    {st st' : SchedState} {i : Nat}
    (h : schedStep g byName succeeds st i = .ok st') :
    ∃ pkg n, st.queued[i]? = some pkg ∧ lookupN byName pkg = some n ∧
      ((succeeds pkg = true ∧
        st' = ⟨st.queued.eraseIdx i ++ ((inNbrs g n.id).filter
          (fun c => canBuild g (setB st.built pkg true) c)).map Node.name,
          setB st.built pkg true⟩) ∨
       (succeeds pkg = false ∧ ∃ r,
         markFailed g (schedFuel g) (setB st.built pkg false) n = .ok r ∧
         st' = ⟨st.queued.eraseIdx i, r.1⟩)) := by
  unfold schedStep at h
  cases hq : st.queued[i]? with
  | none =>
    rw [hq] at h
    cases h
  | some pkg =>
    rw [hq] at h
    dsimp only at h
    cases hn : lookupN byName pkg with
    | none =>
      rw [hn] at h
      cases h
    | some n =>
      rw [hn] at h
      dsimp only at h
      refine ⟨pkg, n, rfl, hn, ?_⟩
      cases hs : succeeds pkg with
      | true =>
        rw [hs] at h
        rw [if_pos rfl] at h
        cases h
        exact Or.inl ⟨rfl, rfl⟩
      | false =>
        rw [hs] at h
        rw [if_neg (by simp)] at h
        cases hmf : markFailed g (schedFuel g) (setB st.built pkg false) n with
        | error e =>
          rw [hmf] at h
          cases e <;> simp at h
        | ok r =>
          rw [hmf] at h
          dsimp only at h
          cases h
          exact Or.inr ⟨rfl, r, rfl, rfl⟩

theorem schedStep_eq_success {g : DGraph} {byName : NameMap}
    {succeeds : String → Bool} {st : SchedState} {i : Nat} {pkg : String}
    {n : Node} (hq : st.queued[i]? = some pkg)
    (hn : lookupN byName pkg = some n) (hs : succeeds pkg = true) :
    schedStep g byName succeeds st i = .ok
      ⟨st.queued.eraseIdx i ++ ((inNbrs g n.id).filter
        (fun c => canBuild g (setB st.built pkg true) c)).map Node.name,
        setB st.built pkg true⟩ := by
  unfold schedStep
  rw [hq]
  dsimp only
  rw [hn]
  dsimp only
  rw [hs, if_pos rfl]

theorem schedStep_eq_failure {g : DGraph} {byName : NameMap}
    {succeeds : String → Bool} {st : SchedState} {i : Nat} {pkg : String}
    {n : Node} {r : BuiltMap × List String} (hq : st.queued[i]? = some pkg)
    (hn : lookupN byName pkg = some n) (hs : succeeds pkg = false)
    (hmf : markFailed g (schedFuel g) (setB st.built pkg false) n = .ok r) :
    schedStep g byName succeeds st i = .ok ⟨st.queued.eraseIdx i, r.1⟩ := by
  unfold schedStep
  rw [hq]
  dsimp only
  rw [hn]
  dsimp only
  rw [hs, if_neg (by simp), hmf]

theorem lookupB_setB_keep {b : BuiltMap} {k k' : String} {w : Bool} (v : Bool)
    (hfresh : lookupB b k = none) (h : lookupB b k' = some w) :
    lookupB (setB b k v) k' = some w := by
  by_cases hk : k' = k
  · rw [hk] at h
    rw [h] at hfresh
    cases hfresh
  · rw [lookupB_setB_ne b k k' v hk]
    exact h

theorem inv_step_success {g : DGraph} {byName : NameMap}
    {succeeds : String → Bool} {st : SchedState} {i : Nat} {pkg : String}
    {n : Node} (hwf : SchedWF g byName) (hinv : Inv g succeeds st)
    (hq : st.queued[i]? = some pkg) (hn : lookupN byName pkg = some n)
    (hs : succeeds pkg = true) :
    Inv g succeeds ⟨st.queued.eraseIdx i ++ ((inNbrs g n.id).filter
      (fun c => canBuild g (setB st.built pkg true) c)).map Node.name,
      setB st.built pkg true⟩ := by
  have hperm := perm_cons_eraseIdx st.queued i pkg hq
  have hpkgq : pkg ∈ st.queued := hperm.mem_iff.2 (List.mem_cons_self _ _)
  have hconsN : (pkg :: st.queued.eraseIdx i).Nodup := hperm.nodup_iff.1 hinv.qNodup
  have hpkg_rest : pkg ∉ st.queued.eraseIdx i := (List.nodup_cons.1 hconsN).1
  have hrestN : (st.queued.eraseIdx i).Nodup := (List.nodup_cons.1 hconsN).2
  have hrest_mem : ∀ q ∈ st.queued.eraseIdx i, q ∈ st.queued := fun q hq' =>
    hperm.mem_iff.2 (List.mem_cons_of_mem _ hq')
  obtain ⟨hnN, hnName⟩ := byName_sound hwf hn
  have hfresh : lookupB st.built pkg = none := hinv.i1a pkg hpkgq
  have hready_mem : ∀ c ∈ (inNbrs g n.id).filter
      (fun c => canBuild g (setB st.built pkg true) c),
      c ∈ g.nodes ∧ (c.id, n.id) ∈ g.edges ∧
        canBuild g (setB st.built pkg true) c = true := by
    intro c hc
    rw [List.mem_filter] at hc
    obtain ⟨hcin, hcb⟩ := hc
    obtain ⟨h1, h2⟩ := (mem_inNbrs g n.id c).1 hcin
    exact ⟨h1, h2, hcb⟩
  have hready_sub : List.Sublist ((inNbrs g n.id).filter
      (fun c => canBuild g (setB st.built pkg true) c)) g.nodes :=
    (List.filter_sublist _).trans (List.filter_sublist _)
  have hready_nodup : (((inNbrs g n.id).filter
      (fun c => canBuild g (setB st.built pkg true) c)).map Node.name).Nodup :=
    hwf.1.sublist (hready_sub.map Node.name)
  have halpha : ∀ c ∈ (inNbrs g n.id).filter
      (fun c => canBuild g (setB st.built pkg true) c),
      c.name ≠ pkg ∧ lookupB st.built c.name = none := by
    intro c hc
    obtain ⟨hcN, hce, hcb⟩ := hready_mem c hc
    have hidne : c.id ≠ n.id := (hwf.2.2.1 _ hce).2.2
    have hnamene : c.name ≠ pkg := by
      intro heq
      exact hidne (congrArg Node.id (name_inj hwf.1 hcN hnN (heq.trans hnName.symm)))
    refine ⟨hnamene, ?_⟩
    cases hv : lookupB st.built c.name with
    | none => rfl
    | some v =>
      cases v with
      | true =>
        have ht := hinv.i2 c hcN hv n ((mem_outNbrs g c.id n).2 ⟨hnN, hce⟩)
        rw [hnName] at ht
        rw [ht] at hfresh
        simp at hfresh
      | false =>
        rcases hinv.fDep c hcN hv with ⟨d, hd, hdf⟩ | hall
        · have hdnepkg : d.name ≠ pkg := by
            intro heq
            rw [heq] at hdf
            rw [hdf] at hfresh
            simp at hfresh
          have ht := (canBuild_iff g (setB st.built pkg true) c).1 hcb d hd
          rw [lookupB_setB_ne st.built pkg d.name true hdnepkg] at ht
          rw [ht] at hdf
          simp at hdf
        · have ht := hall n ((mem_outNbrs g c.id n).2 ⟨hnN, hce⟩)
          rw [hnName] at ht
          rw [ht] at hfresh
          simp at hfresh
  have hbeta : ∀ c ∈ (inNbrs g n.id).filter
      (fun c => canBuild g (setB st.built pkg true) c),
      c.name ∉ st.queued.eraseIdx i := by
    intro c hc hmem
    obtain ⟨hcN, hce, _⟩ := hready_mem c hc
    have hq' : c.name ∈ st.queued := hrest_mem _ hmem
    have ht := hinv.i1b c hcN hq' n ((mem_outNbrs g c.id n).2 ⟨hnN, hce⟩)
    rw [hnName] at ht
    rw [ht] at hfresh
    simp at hfresh
  refine ⟨?_, ?_, ?_, ?_, ?_, ?_, ?_, ?_, ?_, ?_, ?_⟩
  · refine List.Nodup.append hrestN hready_nodup ?_
    intro a ha1 ha2
    obtain ⟨c, hc, hcname⟩ := List.mem_map.1 ha2
    exact hbeta c hc (hcname ▸ ha1)
  · intro q hq'
    rcases List.mem_append.1 hq' with h1 | h1
    · exact hinv.qNodes q (hrest_mem q h1)
    · obtain ⟨c, hc, hcname⟩ := List.mem_map.1 h1
      exact ⟨c, (hready_mem c hc).1, hcname⟩
  · exact keysB_setB_nodup st.built pkg true hinv.kNodup
  · intro k hk
    rcases keysB_setB st.built pkg true k hk with h1 | h1
    · exact ⟨n, hnN, by rw [hnName, h1]⟩
    · exact hinv.kNodes k h1
  · intro q hq'
    rcases List.mem_append.1 hq' with h1 | h1
    · have hqn : q ≠ pkg := fun he => hpkg_rest (he ▸ h1)
      rw [lookupB_setB_ne st.built pkg q true hqn]
      exact hinv.i1a q (hrest_mem q h1)
    · obtain ⟨c, hc, hcname⟩ := List.mem_map.1 h1
      obtain ⟨hcne, hcnone⟩ := halpha c hc
      rw [← hcname, lookupB_setB_ne st.built pkg c.name true hcne]
      exact hcnone
  · intro m hm hmq d hd
    rcases List.mem_append.1 hmq with h1 | h1
    · exact lookupB_setB_keep true hfresh (hinv.i1b m hm (hrest_mem _ h1) d hd)
    · obtain ⟨c, hc, hcname⟩ := List.mem_map.1 h1
      have hcm : c = m := name_inj hwf.1 (hready_mem c hc).1 hm hcname
      exact (canBuild_iff g (setB st.built pkg true) c).1 (hready_mem c hc).2.2 d
        (by rw [hcm]; exact hd)
  · intro m hm hmt
    by_cases hk : m.name = pkg
    · rw [hk]
      exact hs
    · rw [lookupB_setB_ne st.built pkg m.name true hk] at hmt
      exact hinv.kTrue m hm hmt
  · intro m hm hmt d hd
    by_cases hk : m.name = pkg
    · exact lookupB_setB_keep true hfresh
        (hinv.i1b m hm (by rw [hk]; exact hpkgq) d hd)
    · rw [lookupB_setB_ne st.built pkg m.name true hk] at hmt
      exact lookupB_setB_keep true hfresh (hinv.i2 m hm hmt d hd)
  · intro m hm hmf' c hc
    have hk : m.name ≠ pkg := by
      intro he
      rw [he, lookupB_setB_self] at hmf'
      simp at hmf'
    rw [lookupB_setB_ne st.built pkg m.name true hk] at hmf'
    have hcf := hinv.jDep m hm hmf' c hc
    have hck : c.name ≠ pkg := by
      intro he
      rw [he] at hcf
      rw [hcf] at hfresh
      simp at hfresh
    rw [lookupB_setB_ne st.built pkg c.name true hck]
    exact hcf
  · intro m hm hmf'
    have hk : m.name ≠ pkg := by
      intro he
      rw [he, lookupB_setB_self] at hmf'
      simp at hmf'
    rw [lookupB_setB_ne st.built pkg m.name true hk] at hmf'
    rcases hinv.fDep m hm hmf' with ⟨d, hd, hdf⟩ | hall
    · left
      have hdk : d.name ≠ pkg := by
        intro he
        rw [he] at hdf
        rw [hdf] at hfresh
        simp at hfresh
      refine ⟨d, hd, ?_⟩
      rw [lookupB_setB_ne st.built pkg d.name true hdk]
      exact hdf
    · right
      intro d hd
      exact lookupB_setB_keep true hfresh (hall d hd)
  · intro m hm
    rcases hinv.pr m hm with h1 | h1 | h1
    · left
      rw [Option.isSome_iff_exists] at h1
      obtain ⟨a, ha⟩ := h1
      rw [Option.isSome_iff_exists]
      exact ⟨a, lookupB_setB_keep true hfresh ha⟩
    · rcases List.mem_cons.1 (hperm.mem_iff.1 h1) with h2 | h2
      · left
        rw [h2, lookupB_setB_self]
        rfl
      · right
        left
        exact List.mem_append_left _ h2
    · obtain ⟨d, hd, hdn⟩ := h1
      by_cases hdk : d.name = pkg
      · have hdn' : d = n :=
          name_inj hwf.1 ((mem_outNbrs g m.id d).1 hd).1 hnN (hdk.trans hnName.symm)
        have hedge : (m.id, n.id) ∈ g.edges := by
          rw [← hdn']
          exact ((mem_outNbrs g m.id d).1 hd).2
        by_cases hcb : canBuild g (setB st.built pkg true) m = true
        · right
          left
          refine List.mem_append_right _ (List.mem_map.2 ⟨m, ?_, rfl⟩)
          exact List.mem_filter.2 ⟨(mem_inNbrs g n.id m).2 ⟨hm, hedge⟩, hcb⟩
        · have hex : ∃ d' ∈ outNbrs g m.id,
              ¬lookupB (setB st.built pkg true) d'.name = some true := by
            by_contra hcon
            push_neg at hcon
            exact hcb ((canBuild_iff g (setB st.built pkg true) m).2 hcon)
          obtain ⟨d', hd', hd'nt⟩ := hex
          cases hv : lookupB (setB st.built pkg true) d'.name with
          | none =>
            right
            right
            exact ⟨d', hd', hv⟩
          | some v =>
            cases v with
            | true => exact absurd hv hd'nt
            | false =>
              have hd'k : d'.name ≠ pkg := by
                intro he
                rw [he, lookupB_setB_self] at hv
                simp at hv
              rw [lookupB_setB_ne st.built pkg d'.name true hd'k] at hv
              have hmfalse := hinv.jDep d' ((mem_outNbrs g m.id d').1 hd').1 hv m
                ((mem_inNbrs g d'.id m).2 ⟨hm, ((mem_outNbrs g m.id d').1 hd').2⟩)
              left
              rw [Option.isSome_iff_exists]
              exact ⟨false, lookupB_setB_keep true hfresh hmfalse⟩
      · right
        right
        refine ⟨d, hd, ?_⟩
        rw [lookupB_setB_ne st.built pkg d.name true hdk]
        exact hdn

theorem inv_step_failure {g : DGraph} {byName : NameMap}
    {succeeds : String → Bool} {st : SchedState} {i : Nat} {pkg : String}
    {n : Node} {r : BuiltMap × List String}
    (hwf : SchedWF g byName) (hinv : Inv g succeeds st)
    (hq : st.queued[i]? = some pkg) (hn : lookupN byName pkg = some n)
    (hs : succeeds pkg = false)
    (hmf : markFailed g (schedFuel g) (setB st.built pkg false) n = .ok r) :
    Inv g succeeds ⟨st.queued.eraseIdx i, r.1⟩ := by
  have hperm := perm_cons_eraseIdx st.queued i pkg hq
  have hpkgq : pkg ∈ st.queued := hperm.mem_iff.2 (List.mem_cons_self _ _)
  have hconsN : (pkg :: st.queued.eraseIdx i).Nodup := hperm.nodup_iff.1 hinv.qNodup
  have hpkg_rest : pkg ∉ st.queued.eraseIdx i := (List.nodup_cons.1 hconsN).1
  have hrestN : (st.queued.eraseIdx i).Nodup := (List.nodup_cons.1 hconsN).2
  have hrest_mem : ∀ q ∈ st.queued.eraseIdx i, q ∈ st.queued := fun q hq' =>
    hperm.mem_iff.2 (List.mem_cons_of_mem _ hq')
  obtain ⟨hnN, hnName⟩ := byName_sound hwf hn
  have hfresh : lookupB st.built pkg = none := hinv.i1a pkg hpkgq
  have hEdges1 : ∀ e ∈ g.edges, ∃ a ∈ g.nodes, a.id = e.1 :=
    fun e he => (hwf.2.2.1 e he).1
  have hW := markFailed_writesFalse g _ _ _ _ hmf
  have hTM := markFailed_trueMono g _ _ _ _ hmf
  have hM1 := markFailed_marksOnly g _ _ _ _ hmf
  have hMA := markFailed_marksAll g hEdges1 hwf.2.1 _ _ _ _ hmf
  have hK := markFailed_keysOK g _ _ _ _ hmf
  have hrtrue : ∀ k, lookupB r.1 k = some true →
      lookupB st.built k = some true ∧ k ≠ pkg := by
    intro k hk
    rcases hW k with hsame | hfalse
    · have h2 : lookupB (setB st.built pkg false) k = some true := hsame.symm.trans hk
      have hkp : k ≠ pkg := by
        intro he
        rw [he, lookupB_setB_self] at h2
        simp at h2
      rw [lookupB_setB_ne st.built pkg k false hkp] at h2
      exact ⟨h2, hkp⟩
    · rw [hk] at hfalse
      simp at hfalse
  have hnoreach : ∀ m ∈ g.nodes, m.name ∈ st.queued.eraseIdx i →
      ¬Reaches g m.id n.id := by
    intro m hm hmq hre
    have ht := queued_reach_true hwf hinv hm (hrest_mem _ hmq) hnN hre
    rw [hnName] at ht
    rw [ht] at hfresh
    simp at hfresh
  have huntouched : ∀ m ∈ g.nodes, ¬Reaches g m.id n.id → m.name ≠ pkg →
      lookupB r.1 m.name = lookupB st.built m.name := by
    intro m hm hnr hk
    rcases hM1 m.name with hsame | ⟨_, x, hx, hxname, hxre⟩
    · rw [hsame, lookupB_setB_ne st.built pkg m.name false hk]
    · have hxm : x = m := name_inj hwf.1 hx hm hxname
      rw [hxm] at hxre
      exact absurd hxre hnr
  refine ⟨?_, ?_, ?_, ?_, ?_, ?_, ?_, ?_, ?_, ?_, ?_⟩
  · exact hrestN
  · intro q hq'
    exact hinv.qNodes q (hrest_mem q hq')
  · exact hK.1 (keysB_setB_nodup st.built pkg false hinv.kNodup)
  · intro k hk
    rcases hK.2.1 k hk with h1 | h1
    · rcases keysB_setB st.built pkg false k h1 with h2 | h2
      · exact ⟨n, hnN, by rw [hnName, h2]⟩
      · exact hinv.kNodes k h2
    · exact h1
  · intro q hq'
    obtain ⟨m, hm, hmname⟩ := hinv.qNodes q (hrest_mem _ hq')
    have hqpkg : q ≠ pkg := fun he => hpkg_rest (he ▸ hq')
    have h2 := huntouched m hm (hnoreach m hm (by rw [hmname]; exact hq'))
      (by rw [hmname]; exact hqpkg)
    rw [hmname] at h2
    rw [h2]
    exact hinv.i1a q (hrest_mem _ hq')
  · intro m hm hmq d hd
    have hold := hinv.i1b m hm (hrest_mem _ hmq) d hd
    have hdk : d.name ≠ pkg := by
      intro he
      rw [he] at hold
      rw [hold] at hfresh
      simp at hfresh
    refine hTM d.name ?_
    rw [lookupB_setB_ne st.built pkg d.name false hdk]
    exact hold
  · intro m hm hmt
    exact hinv.kTrue m hm (hrtrue m.name hmt).1
  · intro m hm hmt d hd
    have hold := hinv.i2 m hm (hrtrue m.name hmt).1 d hd
    have hdk : d.name ≠ pkg := by
      intro he
      rw [he] at hold
      rw [hold] at hfresh
      simp at hfresh
    refine hTM d.name ?_
    rw [lookupB_setB_ne st.built pkg d.name false hdk]
    exact hold
  · intro m hm hmf' c hc
    rcases hM1 m.name with hsame | ⟨_, x, hx, hxname, hxre⟩
    · have hb1m : lookupB (setB st.built pkg false) m.name = some false :=
        hsame.symm.trans hmf'
      by_cases hk : m.name = pkg
      · have hmn : m = n := name_inj hwf.1 hm hnN (hk.trans hnName.symm)
        have hedge : (c.id, n.id) ∈ g.edges := by
          rw [← hmn]
          exact ((mem_inNbrs g m.id c).1 hc).2
        exact hMA c ((mem_inNbrs g m.id c).1 hc).1 (Reaches.single hedge)
      · rw [lookupB_setB_ne st.built pkg m.name false hk] at hb1m
        have hcf := hinv.jDep m hm hb1m c hc
        have hck : c.name ≠ pkg := by
          intro he
          rw [he] at hcf
          rw [hcf] at hfresh
          simp at hfresh
        rcases hW c.name with hsame2 | hfalse2
        · rw [hsame2, lookupB_setB_ne st.built pkg c.name false hck]
          exact hcf
        · exact hfalse2
    · have hxm : x = m := name_inj hwf.1 hx hm hxname
      rw [hxm] at hxre
      exact hMA c ((mem_inNbrs g m.id c).1 hc).1
        (Reaches.step ((mem_inNbrs g m.id c).1 hc).2 hxre)
  · intro m hm hmf'
    rcases hM1 m.name with hsame | ⟨_, x, hx, hxname, hxre⟩
    · have hb1m : lookupB (setB st.built pkg false) m.name = some false :=
        hsame.symm.trans hmf'
      by_cases hk : m.name = pkg
      · right
        intro d hd
        have hold := hinv.i1b m hm (by rw [hk]; exact hpkgq) d hd
        have hdk : d.name ≠ pkg := by
          intro he
          rw [he] at hold
          rw [hold] at hfresh
          simp at hfresh
        refine hTM d.name ?_
        rw [lookupB_setB_ne st.built pkg d.name false hdk]
        exact hold
      · rw [lookupB_setB_ne st.built pkg m.name false hk] at hb1m
        rcases hinv.fDep m hm hb1m with ⟨d, hd, hdf⟩ | hall
        · left
          have hdk : d.name ≠ pkg := by
            intro he
            rw [he] at hdf
            rw [hdf] at hfresh
            simp at hfresh
          refine ⟨d, hd, ?_⟩
          rcases hW d.name with hsame2 | hfalse2
          · rw [hsame2, lookupB_setB_ne st.built pkg d.name false hdk]
            exact hdf
          · exact hfalse2
        · right
          intro d hd
          have hold := hall d hd
          have hdk : d.name ≠ pkg := by
            intro he
            rw [he] at hold
            rw [hold] at hfresh
            simp at hfresh
          refine hTM d.name ?_
          rw [lookupB_setB_ne st.built pkg d.name false hdk]
          exact hold
    · have hxm : x = m := name_inj hwf.1 hx hm hxname
      rw [hxm] at hxre
      cases hxre with
      | single he =>
        left
        refine ⟨n, (mem_outNbrs g m.id n).2 ⟨hnN, he⟩, ?_⟩
        rcases hW n.name with hsame2 | hfalse2
        · rw [hsame2, hnName, lookupB_setB_self]
        · exact hfalse2
      | step he hre' =>
        obtain ⟨_, ⟨xb, hxb, hxbid⟩, _⟩ := hwf.2.2.1 _ he
        left
        refine ⟨xb, (mem_outNbrs g m.id xb).2 ⟨hxb, by rw [hxbid]; exact he⟩, ?_⟩
        exact hMA xb hxb (by rw [hxbid]; exact hre')
  · intro m hm
    rcases hinv.pr m hm with h1 | h1 | h1
    · left
      rw [Option.isSome_iff_exists] at h1
      obtain ⟨a, ha⟩ := h1
      have hb1 : (lookupB (setB st.built pkg false) m.name).isSome = true := by
        by_cases hk : m.name = pkg
        · rw [hk, lookupB_setB_self]
          rfl
        · rw [lookupB_setB_ne st.built pkg m.name false hk, ha]
          rfl
      rcases hW m.name with hsame | hfalse
      · rw [hsame]
        exact hb1
      · rw [hfalse]
        rfl
    · rcases List.mem_cons.1 (hperm.mem_iff.1 h1) with h2 | h2
      · left
        rcases hW m.name with hsame | hfalse
        · rw [hsame, h2, lookupB_setB_self]
          rfl
        · rw [hfalse]
          rfl
      · right
        left
        exact h2
    · obtain ⟨d, hd, hdn⟩ := h1
      by_cases hdk : d.name = pkg
      · have hdn' : d = n :=
          name_inj hwf.1 ((mem_outNbrs g m.id d).1 hd).1 hnN (hdk.trans hnName.symm)
        have hedge : (m.id, n.id) ∈ g.edges := by
          rw [← hdn']
          exact ((mem_outNbrs g m.id d).1 hd).2
        left
        rw [hMA m hm (Reaches.single hedge)]
        rfl
      · rcases hM1 d.name with hsame | ⟨_, x, hx, hxname, hxre⟩
        · right
          right
          refine ⟨d, hd, ?_⟩
          rw [hsame, lookupB_setB_ne st.built pkg d.name false hdk]
          exact hdn
        · have hxd : x = d :=
            name_inj hwf.1 hx ((mem_outNbrs g m.id d).1 hd).1 hxname
          rw [hxd] at hxre
          left
          rw [hMA m hm (Reaches.step ((mem_outNbrs g m.id d).1 hd).2 hxre)]
          rfl

theorem inv_step {g : DGraph} {byName : NameMap} {succeeds : String → Bool}
    {st st' : SchedState} {i : Nat}
    (hwf : SchedWF g byName) (hinv : Inv g succeeds st)
    (h : schedStep g byName succeeds st i = .ok st') : Inv g succeeds st' := by
  obtain ⟨pkg, n, hq, hn, hbr⟩ := schedStep_ok_inv h
  rcases hbr with ⟨hs, hst⟩ | ⟨hs, r, hmf, hst⟩
  · rw [hst]
    exact inv_step_success hwf hinv hq hn hs
  · rw [hst]
    exact inv_step_failure hwf hinv hq hn hs hmf

theorem inv_run {g : DGraph} {byName : NameMap} {succeeds : String → Bool}
    (hwf : SchedWF g byName) :
    ∀ (choices : List Nat) (st st' : SchedState), Inv g succeeds st →
      runTrace g byName succeeds st choices = .ok st' → Inv g succeeds st'
  | [], st, st', hinv, h => by
    rw [runTrace] at h
    cases h
    exact hinv
  | i :: rest, st, st', hinv, h => by
    rw [runTrace] at h
    cases hstep : schedStep g byName succeeds st i with
    | error e =>
      rw [hstep] at h
      cases h
    | ok st1 =>
      rw [hstep] at h
      exact inv_run hwf rest st1 st' (inv_step hwf hinv hstep) h

theorem built_le {g : DGraph} {succeeds : String → Bool} {st : SchedState}
    (hinv : Inv g succeeds st) : st.built.length ≤ g.nodes.length := by
  have hsub : keysB st.built ⊆ g.nodes.map Node.name := by
    intro k hk
    obtain ⟨m, hm, hname⟩ := hinv.kNodes k hk
    exact List.mem_map.2 ⟨m, hm, hname⟩
  have := (List.subperm_of_subset hinv.kNodup hsub).length_le
  simpa [keysB] using this

theorem progress {g : DGraph} {byName : NameMap} {succeeds : String → Bool}
    {st : SchedState} {rank : Int → Nat}
    (hwf : SchedWF g byName) (hrank : ValidRank g rank) (hinv : Inv g succeeds st)
    (hlen : st.built.length < g.nodes.length) : st.queued ≠ [] := by
  intro hempty
  have hall : ∀ (k : Nat), ∀ m ∈ g.nodes, rank m.id ≤ k →
      (lookupB st.built m.name).isSome = true := by
    intro k
    induction k with
    | zero =>
      intro m hm hr
      rcases hinv.pr m hm with h1 | h1 | ⟨d, hd, hdn⟩
      · exact h1
      · rw [hempty] at h1
        cases h1
      · obtain ⟨hdN, hde⟩ := (mem_outNbrs g m.id d).1 hd
        have hlt : rank d.id < rank m.id := hrank.2 _ hde
        omega
    | succ k ih =>
      intro m hm hr
      rcases hinv.pr m hm with h1 | h1 | ⟨d, hd, hdn⟩
      · exact h1
      · rw [hempty] at h1
        cases h1
      · obtain ⟨hdN, hde⟩ := (mem_outNbrs g m.id d).1 hd
        have hlt : rank d.id < rank m.id := hrank.2 _ hde
        have hds := ih d hdN (by omega)
        rw [hdn] at hds
        simp at hds
  have hsup : g.nodes.map Node.name ⊆ keysB st.built := by
    intro k hk
    obtain ⟨m, hm, hname⟩ := List.mem_map.1 hk
    have := hall (rank m.id) m hm (le_refl _)
    rw [← hname]
    exact (lookupB_isSome_iff st.built m.name).1 this
  have := (List.subperm_of_subset hwf.1 hsup).length_le
  simp [keysB] at this
  omega

theorem step_ok {g : DGraph} {byName : NameMap} {succeeds : String → Bool}
    {st : SchedState} {rank : Int → Nat} {i : Nat}
    (hwf : SchedWF g byName) (hrank : ValidRank g rank) (hinv : Inv g succeeds st)
    (hi : i < st.queued.length) :
    ∃ st', schedStep g byName succeeds st i = .ok st' := by
  obtain ⟨pkg, hq⟩ : ∃ pkg, st.queued[i]? = some pkg :=
    ⟨st.queued[i], List.getElem?_eq_getElem hi⟩
  have hpkgq : pkg ∈ st.queued :=
    (perm_cons_eraseIdx _ _ _ hq).mem_iff.2 (List.mem_cons_self _ _)
  obtain ⟨m, hm, hmname⟩ := hinv.qNodes pkg hpkgq
  have hn : lookupN byName pkg = some m := by
    rw [← hmname]
    exact hwf.2.2.2.1 m hm
  cases hs : succeeds pkg with
  | true => exact ⟨_, schedStep_eq_success hq hn hs⟩
  | false =>
    have hfresh : lookupB st.built pkg = none := hinv.i1a pkg hpkgq
    have hNoTrue : ∀ x ∈ g.nodes, Reaches g x.id m.id →
        lookupB (setB st.built pkg false) x.name ≠ some true := by
      intro x hx hre
      by_cases hk : x.name = pkg
      · rw [hk, lookupB_setB_self]
        simp
      · rw [lookupB_setB_ne st.built pkg x.name false hk]
        intro ht
        have hmt := i2_trans hwf hinv hx hm hre ht
        rw [hmname] at hmt
        rw [hmt] at hfresh
        simp at hfresh
    obtain ⟨r, hr⟩ := markFailed_ok g hrank (schedFuel g)
      (setB st.built pkg false) m hm (by unfold schedFuel; omega) hNoTrue
    exact ⟨_, schedStep_eq_failure hq hn hs hr⟩

theorem step_len {g : DGraph} {byName : NameMap} {succeeds : String → Bool}
    {st st' : SchedState} {i : Nat} (hinv : Inv g succeeds st)
    (h : schedStep g byName succeeds st i = .ok st') :
    st.built.length < st'.built.length := by
  obtain ⟨pkg, n, hq, hn, hbr⟩ := schedStep_ok_inv h
  have hpkgq : pkg ∈ st.queued :=
    (perm_cons_eraseIdx _ _ _ hq).mem_iff.2 (List.mem_cons_self _ _)
  have hfresh := hinv.i1a pkg hpkgq
  rcases hbr with ⟨hs, hst⟩ | ⟨hs, r, hmf, hst⟩
  · rw [hst]
    dsimp only
    rw [length_setB_of_none st.built pkg true hfresh]
    omega
  · rw [hst]
    dsimp only
    have h1 : (setB st.built pkg false).length = st.built.length + 1 :=
      length_setB_of_none st.built pkg false hfresh
    have h2 := (markFailed_keysOK g _ _ _ _ hmf).2.2
    omega

theorem complete_from {g : DGraph} {byName : NameMap} {succeeds : String → Bool}
    {rank : Int → Nat} (hwf : SchedWF g byName) (hrank : ValidRank g rank) :
    ∀ (fuel : Nat) (st : SchedState), Inv g succeeds st →
      g.nodes.length ≤ st.built.length + fuel →
      ∃ choices st', runTrace g byName succeeds st choices = .ok st' ∧
        st'.built.length = g.nodes.length
  | 0, st, hinv, hfuel => by
    have := built_le hinv
    exact ⟨[], st, rfl, by omega⟩
  | fuel + 1, st, hinv, hfuel => by
    by_cases hlen : st.built.length < g.nodes.length
    · have hne := progress hwf hrank hinv hlen
      have hi : 0 < st.queued.length := List.length_pos.2 hne
      obtain ⟨st1, hstep⟩ := step_ok hwf hrank hinv hi
      have hinv1 := inv_step hwf hinv hstep
      have hlen1 := step_len hinv hstep
      obtain ⟨choices, st', hrun, hfinal⟩ :=
        complete_from hwf hrank fuel st1 hinv1 (by omega)
      refine ⟨0 :: choices, st', ?_, hfinal⟩
      rw [runTrace, hstep]
      exact hrun
    · have := built_le hinv
      exact ⟨[], st, rfl, by omega⟩

theorem terminal_facts {g : DGraph} {byName : NameMap} {succeeds : String → Bool}
    {st : SchedState} (hwf : SchedWF g byName) (hinv : Inv g succeeds st)
    (hlen : st.built.length = g.nodes.length) :
    st.queued = [] ∧ ∀ m ∈ g.nodes, ∃ bv, lookupB st.built m.name = some bv := by
  have hsub : keysB st.built ⊆ g.nodes.map Node.name := by
    intro k hk
    obtain ⟨m, hm, hname⟩ := hinv.kNodes k hk
    exact List.mem_map.2 ⟨m, hm, hname⟩
  have hperm : (keysB st.built).Perm (g.nodes.map Node.name) :=
    (List.subperm_of_subset hinv.kNodup hsub).perm_of_length_le
      (by simp only [keysB, List.length_map]; omega)
  have hcov : ∀ m ∈ g.nodes, ∃ bv, lookupB st.built m.name = some bv := by
    intro m hm
    have hmem : m.name ∈ keysB st.built :=
      hperm.mem_iff.2 (List.mem_map.2 ⟨m, hm, rfl⟩)
    have := (lookupB_isSome_iff st.built m.name).2 hmem
    rw [Option.isSome_iff_exists] at this
    exact this
  refine ⟨?_, hcov⟩
  cases hq : st.queued with
  | nil => rfl
  | cons q rest =>
    obtain ⟨m, hm, hmname⟩ := hinv.qNodes q (by rw [hq]; exact List.mem_cons_self _ _)
    have hnone := hinv.i1a q (by rw [hq]; exact List.mem_cons_self _ _)
    obtain ⟨bv, hbv⟩ := hcov m hm
    rw [hmname] at hbv
    rw [hbv] at hnone
    cases hnone

/-! ### Graph construction lemmas -/

theorem mkNodes_names (ds : List (String × Build)) :
    (mkNodes ds).map Node.name = ds.map (fun p => nodeName p.1 p.2) := by
  unfold mkNodes
  rw [List.map_map]
  conv_rhs => rw [← List.enum_map_snd ds, List.map_map]
  rfl

theorem mkNodes_length (ds : List (String × Build)) :
    (mkNodes ds).length = ds.length := by
  unfold mkNodes
  rw [List.length_map, List.enum_length]

theorem mkNodes_ids (ds : List (String × Build)) :
    (mkNodes ds).map Node.id = (List.range ds.length).map Int.ofNat := by
  unfold mkNodes
  rw [List.map_map]
  conv_rhs => rw [← List.enum_map_fst ds, List.map_map]
  rfl

theorem mkNodes_ids_nodup (ds : List (String × Build)) :
    ((mkNodes ds).map Node.id).Nodup := by
  rw [mkNodes_ids]
  exact (List.nodup_range _).map (fun a b h => Int.ofNat_inj.1 h)

/-- Last node carrying a given name, in insertion order — what the Go map
retains after the first descriptor loop. -/
def lastNamed (ns : List Node) (k : String) : Option Node :=
  ns.foldl (fun acc n => if n.name = k then some n else acc) none

theorem lookupN_foldl_setN (k : String) :
    ∀ (l : List Node) (m : NameMap),
      lookupN (l.foldl (fun acc n => setN acc n.name n) m) k =
        l.foldl (fun acc n => if n.name = k then some n else acc) (lookupN m k)
  | [], m => rfl
  | x :: xs, m => by
    rw [List.foldl_cons, List.foldl_cons, lookupN_foldl_setN k xs]
    congr 1
    by_cases h : x.name = k
    · rw [if_pos h, ← h, lookupN_setN_self]
    · rw [if_neg h, lookupN_setN_ne m x.name k x (fun he => h he.symm)]

theorem lookupN_mkByName (ds : List (String × Build)) (k : String) :
    lookupN (mkByName ds) k = lastNamed (mkNodes ds) k := by
  unfold mkByName lastNamed
  rw [lookupN_foldl_setN]
  rfl

theorem foldl_pick_sound (k : String) :
    ∀ (ns : List Node) (acc : Option Node) (v : Node),
      ns.foldl (fun acc n => if n.name = k then some n else acc) acc = some v →
      acc = some v ∨ (v ∈ ns ∧ v.name = k)
  | [], _, _, h => Or.inl h
  | x :: xs, acc, v, h => by
    rw [List.foldl_cons] at h
    rcases foldl_pick_sound k xs _ v h with h1 | h1
    · by_cases hx : x.name = k
      · rw [if_pos hx] at h1
        cases h1
        exact Or.inr ⟨List.mem_cons_self _ _, hx⟩
      · rw [if_neg hx] at h1
        exact Or.inl h1
    · exact Or.inr ⟨List.mem_cons_of_mem _ h1.1, h1.2⟩

theorem foldl_pick_stable (k : String) :
    ∀ (ns : List Node) (w : Node),
      ∃ w', ns.foldl (fun acc n => if n.name = k then some n else acc)
        (some w) = some w'
  | [], w => ⟨w, rfl⟩
  | x :: xs, w => by
    rw [List.foldl_cons]
    by_cases hx : x.name = k
    · rw [if_pos hx]
      exact foldl_pick_stable k xs x
    · rw [if_neg hx]
      exact foldl_pick_stable k xs w

theorem foldl_pick_mem (k : String) :
    ∀ (ns : List Node) (acc : Option Node), (∃ v ∈ ns, v.name = k) →
      ∃ w, ns.foldl (fun acc n => if n.name = k then some n else acc) acc = some w
  | [], _, h => by
    obtain ⟨v, hv, _⟩ := h
    cases hv
  | x :: xs, acc, h => by
    rw [List.foldl_cons]
    by_cases hmem : ∃ v ∈ xs, v.name = k
    · exact foldl_pick_mem k xs _ hmem
    · obtain ⟨v, hv, hvk⟩ := h
      rcases List.mem_cons.1 hv with h1 | h1
      · rw [h1] at hvk
        rw [if_pos hvk]
        exact foldl_pick_stable k xs x
      · exact absurd ⟨v, h1, hvk⟩ hmem

theorem mkByName_sound (ds : List (String × Build)) (k : String) (v : Node)
    (h : lookupN (mkByName ds) k = some v) : v ∈ mkNodes ds ∧ v.name = k := by
  rw [lookupN_mkByName] at h
  rcases foldl_pick_sound k (mkNodes ds) none v h with h1 | h1
  · cases h1
  · exact h1

theorem mkByName_complete (ds : List (String × Build)) {pkg : String} {b : Build}
    (hmem : (pkg, b) ∈ ds) :
    ∃ v, lookupN (mkByName ds) (nodeName pkg b) = some v := by
  rw [lookupN_mkByName]
  have hname : nodeName pkg b ∈ (mkNodes ds).map Node.name := by
    rw [mkNodes_names]
    exact List.mem_map.2 ⟨(pkg, b), hmem, rfl⟩
  obtain ⟨v, hv, hvn⟩ := List.mem_map.1 hname
  exact foldl_pick_mem (nodeName pkg b) (mkNodes ds) none ⟨v, hv, hvn⟩

/-! ### Edge-fold lemmas -/

theorem mem_insertEdge_of_mem {es : List (Int × Int)} {x e : Int × Int}
    (h : e ∈ es) : e ∈ insertEdge es x := by
  unfold insertEdge
  split
  · exact h
  · exact List.mem_append_left _ h

theorem self_mem_insertEdge (es : List (Int × Int)) (x : Int × Int) :
    x ∈ insertEdge es x := by
  unfold insertEdge
  split
  · assumption
  · exact List.mem_append_right _ (List.mem_singleton.2 rfl)

theorem mem_insertEdge {es : List (Int × Int)} {x e : Int × Int}
    (h : e ∈ insertEdge es x) : e ∈ es ∨ e = x := by
  unfold insertEdge at h
  split at h
  · exact Or.inl h
  · rcases List.mem_append.1 h with h1 | h1
    · exact Or.inl h1
    · exact Or.inr (List.mem_singleton.1 h1)

theorem addDeps_subset {byName : NameMap} {own : String} {n : Node} :
    ∀ (deps : List String) (es es' : List (Int × Int)),
      addDeps byName own n deps es = .ok es' → ∀ e ∈ es, e ∈ es'
  | [], es, es', h => by
    rw [addDeps] at h
    cases h
    exact fun e he => he
  | dep :: rest, es, es', h => by
    rw [addDeps] at h
    by_cases hd : dep = own
    · rw [if_pos hd] at h
      exact addDeps_subset rest es es' h
    · rw [if_neg hd] at h
      cases hl : lookupN byName dep with
      | none =>
        rw [hl] at h
        cases h
      | some m =>
        rw [hl] at h
        intro e he
        exact addDeps_subset rest _ es' h e (mem_insertEdge_of_mem he)

theorem addDeps_adds {byName : NameMap} {own : String} {n : Node} :
    ∀ (deps : List String) (es es' : List (Int × Int)),
      addDeps byName own n deps es = .ok es' →
      ∀ dep ∈ deps, dep ≠ own →
        ∃ m, lookupN byName dep = some m ∧ (n.id, m.id) ∈ es'
  | [], _, _, _, dep, hd, _ => absurd hd (List.not_mem_nil dep)
  | dep0 :: rest, es, es', h, dep, hd, hne => by
    rw [addDeps] at h
    rcases List.mem_cons.1 hd with h1 | h1
    · subst h1
      rw [if_neg hne] at h
      cases hl : lookupN byName dep with
      | none =>
        rw [hl] at h
        cases h
      | some m =>
        rw [hl] at h
        exact ⟨m, rfl, addDeps_subset rest _ es' h _ (self_mem_insertEdge es (n.id, m.id))⟩
    · by_cases hd0 : dep0 = own
      · rw [if_pos hd0] at h
        exact addDeps_adds rest es es' h dep h1 hne
      · rw [if_neg hd0] at h
        cases hl : lookupN byName dep0 with
        | none =>
          rw [hl] at h
          cases h
        | some m =>
          rw [hl] at h
          exact addDeps_adds rest _ es' h dep h1 hne

theorem addDeps_all {byName : NameMap} {own : String} {n : Node}
    (P : Int × Int → Prop)
    (hnew : ∀ m dep, lookupN byName dep = some m → dep ≠ own → P (n.id, m.id)) :
    ∀ (deps : List String) (es es' : List (Int × Int)),
      addDeps byName own n deps es = .ok es' → (∀ e ∈ es, P e) → ∀ e ∈ es', P e
  | [], es, es', h, hP => by
    rw [addDeps] at h
    cases h
    exact hP
  | dep :: rest, es, es', h, hP => by
    rw [addDeps] at h
    by_cases hd : dep = own
    · rw [if_pos hd] at h
      exact addDeps_all P hnew rest es es' h hP
    · rw [if_neg hd] at h
      cases hl : lookupN byName dep with
      | none =>
        rw [hl] at h
        cases h
      | some m =>
        rw [hl] at h
        refine addDeps_all P hnew rest _ es' h ?_
        intro e he
        rcases mem_insertEdge he with h1 | h1
        · exact hP e h1
        · rw [h1]
          exact hnew m dep hl hd

theorem addDeps_error_shape {byName : NameMap} {own : String} {n : Node} :
    ∀ (deps : List String) (es : List (Int × Int)) (e : BuildErr),
      addDeps byName own n deps es = .error e →
      ∃ d', e = .unresolvedDependency d'
  | [], es, e, h => by
    rw [addDeps] at h
    cases h
  | dep :: rest, es, e, h => by
    rw [addDeps] at h
    by_cases hd : dep = own
    · rw [if_pos hd] at h
      exact addDeps_error_shape rest es e h
    · rw [if_neg hd] at h
      cases hl : lookupN byName dep with
      | none =>
        rw [hl] at h
        cases h
        exact ⟨dep, rfl⟩
      | some m =>
        rw [hl] at h
        exact addDeps_error_shape rest _ e h

theorem addDeps_missing {byName : NameMap} {own : String} {n : Node} :
    ∀ (deps : List String) (es : List (Int × Int)),
      (∃ dep ∈ deps, dep ≠ own ∧ lookupN byName dep = none) →
      ∃ d', addDeps byName own n deps es = .error (.unresolvedDependency d')
  | [], _, h => by
    obtain ⟨dep, hd, _⟩ := h
    cases hd
  | dep0 :: rest, es, h => by
    rw [addDeps]
    by_cases hd0 : dep0 = own
    · rw [if_pos hd0]
      refine addDeps_missing rest es ?_
      obtain ⟨dep, hd, hne, hl⟩ := h
      rcases List.mem_cons.1 hd with h1 | h1
      · rw [← h1] at hd0
        exact absurd hd0 hne
      · exact ⟨dep, h1, hne, hl⟩
    · rw [if_neg hd0]
      cases hl0 : lookupN byName dep0 with
      | none => exact ⟨dep0, rfl⟩
      | some m =>
        refine addDeps_missing rest _ ?_
        obtain ⟨dep, hd, hne, hl⟩ := h
        rcases List.mem_cons.1 hd with h1 | h1
        · rw [← h1] at hl0
          rw [hl0] at hl
          cases hl
        · exact ⟨dep, h1, hne, hl⟩

theorem bge_subset {byName : NameMap} :
    ∀ (ds : List (String × Build)) (es es' : List (Int × Int)),
      buildGraphEdges byName ds es = .ok es' → ∀ e ∈ es, e ∈ es'
  | [], es, es', h => by
    rw [buildGraphEdges] at h
    cases h
    exact fun e he => he
  | (pkg, b) :: rest, es, es', h => by
    rw [buildGraphEdges] at h
    cases hl : lookupN byName (nodeName pkg b) with
    | none =>
      rw [hl] at h
      cases h
    | some n =>
      rw [hl] at h
      dsimp only at h
      cases ha : addDeps byName (nodeName pkg b) n (mergedDeps b) es with
      | error e =>
        rw [ha] at h
        cases h
      | ok es1 =>
        rw [ha] at h
        intro e he
        exact bge_subset rest es1 es' h e (addDeps_subset _ es es1 ha e he)

theorem bge_adds {byName : NameMap} :
    ∀ (ds : List (String × Build)) (es es' : List (Int × Int)),
      buildGraphEdges byName ds es = .ok es' →
      ∀ pb ∈ ds, ∀ dep ∈ mergedDeps pb.2, dep ≠ nodeName pb.1 pb.2 →
        ∃ n m, lookupN byName (nodeName pb.1 pb.2) = some n ∧
          lookupN byName dep = some m ∧ (n.id, m.id) ∈ es'
  | [], _, _, _, pb, hpb, _, _, _ => absurd hpb (List.not_mem_nil pb)
  | (pkg, b) :: rest, es, es', h, pb, hpb, dep, hdep, hne => by
    rw [buildGraphEdges] at h
    cases hl : lookupN byName (nodeName pkg b) with
    | none =>
      rw [hl] at h
      cases h
    | some n =>
      rw [hl] at h
      dsimp only at h
      cases ha : addDeps byName (nodeName pkg b) n (mergedDeps b) es with
      | error e =>
        rw [ha] at h
        cases h
      | ok es1 =>
        rw [ha] at h
        rcases List.mem_cons.1 hpb with h1 | h1
        · subst h1
          obtain ⟨m, hm, hedge⟩ := addDeps_adds (mergedDeps b) es es1 ha dep hdep hne
          exact ⟨n, m, hl, hm, bge_subset rest es1 es' h _ hedge⟩
        · exact bge_adds rest es1 es' h pb h1 dep hdep hne

theorem bge_all {byName : NameMap} (P : Int × Int → Prop)
    (hnew : ∀ own n m dep, lookupN byName own = some n →
      lookupN byName dep = some m → dep ≠ own → P (n.id, m.id)) :
    ∀ (ds : List (String × Build)) (es es' : List (Int × Int)),
      buildGraphEdges byName ds es = .ok es' → (∀ e ∈ es, P e) → ∀ e ∈ es', P e
  | [], es, es', h, hP => by
    rw [buildGraphEdges] at h
    cases h
    exact hP
  | (pkg, b) :: rest, es, es', h, hP => by
    rw [buildGraphEdges] at h
    cases hl : lookupN byName (nodeName pkg b) with
    | none =>
      rw [hl] at h
      cases h
    | some n =>
      rw [hl] at h
      dsimp only at h
      cases ha : addDeps byName (nodeName pkg b) n (mergedDeps b) es with
      | error e =>
        rw [ha] at h
        cases h
      | ok es1 =>
        rw [ha] at h
        refine bge_all P hnew rest es1 es' h ?_
        exact addDeps_all P (fun m dep hm hne => hnew _ n m dep hl hm hne)
          (mergedDeps b) es es1 ha hP

theorem bge_missing {byName : NameMap} :
    ∀ (ds : List (String × Build)) (es : List (Int × Int)),
      (∀ pb ∈ ds, ∃ v, lookupN byName (nodeName pb.1 pb.2) = some v) →
      (∃ pb ∈ ds, ∃ dep ∈ mergedDeps pb.2, dep ≠ nodeName pb.1 pb.2 ∧
        lookupN byName dep = none) →
      ∃ d', buildGraphEdges byName ds es = .error (.unresolvedDependency d')
  | [], _, _, hoff => by
    obtain ⟨pb, hpb, _⟩ := hoff
    cases hpb
  | (pkg, b) :: rest, es, hbn, hoff => by
    rw [buildGraphEdges]
    obtain ⟨v, hv⟩ := hbn (pkg, b) (List.mem_cons_self _ _)
    rw [hv]
    dsimp only
    by_cases hhead : ∃ dep ∈ mergedDeps b, dep ≠ nodeName pkg b ∧
        lookupN byName dep = none
    · obtain ⟨d', hd'⟩ := @addDeps_missing byName (nodeName pkg b) v (mergedDeps b) es hhead
      rw [hd']
      exact ⟨d', rfl⟩
    · cases ha : addDeps byName (nodeName pkg b) v (mergedDeps b) es with
      | error e =>
        obtain ⟨d', hd'⟩ := addDeps_error_shape (mergedDeps b) es e ha
        dsimp only
        rw [hd']
        exact ⟨d', rfl⟩
      | ok es1 =>
        dsimp only
        refine bge_missing rest es1 (fun pb hpb => hbn pb (List.mem_cons_of_mem _ hpb)) ?_
        obtain ⟨pb, hpb, dep, hdep, hne, hl⟩ := hoff
        rcases List.mem_cons.1 hpb with h1 | h1
        · rw [h1] at hdep hne
          exact absurd ⟨dep, hdep, hne, hl⟩ hhead
        · exact ⟨pb, h1, dep, hdep, hne, hl⟩

/-! ### Cycle resolver lemmas -/

theorem mem_stripCyclic_edges (g : DGraph) (e : Int × Int) :
    e ∈ (stripCyclic g).edges ↔
      e ∈ g.edges ∧ ∀ n ∈ g.nodes, n.id = e.1 → cyclicB g n = false := by
  unfold stripCyclic
  rw [List.mem_filter]
  simp only [Bool.not_eq_true', List.any_eq_false]
  constructor
  · rintro ⟨h1, h2⟩
    refine ⟨h1, fun n hn hid => ?_⟩
    have h3 := h2 n hn
    rw [hid] at h3
    simpa using h3
  · rintro ⟨h1, h2⟩
    refine ⟨h1, fun n hn => ?_⟩
    intro hcon
    rw [Bool.and_eq_true, beq_iff_eq] at hcon
    have h4 := h2 n hn hcon.1
    rw [h4] at hcon
    simp at hcon

theorem stripCyclic_outNbrs (g : DGraph) (n : Node) (hn : n ∈ g.nodes)
    (hc : cyclicB g n = true) : outNbrs (stripCyclic g) n.id = [] := by
  unfold outNbrs
  rw [List.filter_eq_nil_iff]
  intro m _
  simp only [decide_eq_true_eq]
  intro hmem
  have h2 := ((mem_stripCyclic_edges g (n.id, m.id)).1 hmem).2 n hn rfl
  rw [hc] at h2
  cases h2

theorem breakCycles_unorderable (g : DGraph) (h : unorderableB g = true) :
    breakCycles g = if unorderableB (stripCyclic g) = true then
      .error .unbreakable else .ok (stripCyclic g) := by
  unfold breakCycles
  rw [if_pos h]

theorem breakCycles_orderable (g : DGraph) (h : unorderableB g = false) :
    breakCycles g = .ok g := by
  unfold breakCycles
  rw [h]
  simp

/-! ### Pipeline lemmas -/

theorem batch_construction_error {ds : List (String × Build)}
    {choices : List Nat} {e : BuildErr} (h : buildGraph ds = .error e) :
    batch ds choices = .error (.construction e) := by
  unfold batch
  rw [h]

theorem batch_cycle_error {ds : List (String × Build)} {choices : List Nat}
    {g : DGraph} (hok : buildGraph ds = .ok g)
    (hc : breakCycles g = .error .unbreakable) :
    batch ds choices = .error .unbreakableCycle := by
  unfold batch
  rw [hok]
  dsimp only
  rw [hc]

theorem summarize_counts (b : BuiltMap) :
    (summarize b).succeeded + (summarize b).failed = (summarize b).total ∧
    (summarize b).total = b.length := by
  unfold summarize
  dsimp only
  have := List.length_filter_le (fun kv => kv.2) b
  exact ⟨by omega, rfl⟩

/-! ### Concrete fixtures (the spec's §8 scenarios) -/

/-- Diamond graph: a (no deps), b→a, c→a, d→b,c. -/
def gD : DGraph :=
  ⟨[⟨0, "a"⟩, ⟨1, "b"⟩, ⟨2, "c"⟩, ⟨3, "d"⟩], [(1, 0), (2, 0), (3, 1), (3, 2)]⟩

def byNameD : NameMap :=
  [("a", ⟨0, "a"⟩), ("b", ⟨1, "b"⟩), ("c", ⟨2, "c"⟩), ("d", ⟨3, "d"⟩)]

def rankD : Int → Nat := fun i => if i = 0 then 0 else if i = 3 then 2 else 1

/-- One package depending on the always-failing libx11-1.6.6. -/
def gL : DGraph := ⟨[⟨0, "libx11-1.6.6"⟩, ⟨1, "w"⟩], [(1, 0)]⟩

def byNameL : NameMap :=
  [("libx11-1.6.6", ⟨0, "libx11-1.6.6"⟩), ("w", ⟨1, "w"⟩)]

def rankL : Int → Nat := fun i => if i = 0 then 0 else 1

/-- State after the diamond's package a succeeded. -/
def stD1 : SchedState := ⟨["b", "c"], [("a", true)]⟩

/-- Terminal state of the libx11 run. -/
def stL1 : SchedState := ⟨[], [("libx11-1.6.6", false), ("w", false)]⟩

/-- The pure 2-cycle x→y, y→x. -/
def gXY : DGraph := ⟨[⟨0, "x"⟩, ⟨1, "y"⟩], [(0, 1), (1, 0)]⟩

/-- Name-colliding descriptors: directories "a-1" (version 2) and
"a" (version 1-2) both yield node name "a-1-2". -/
def ds7 : List (String × Build) :=
  [("a-1", Build.mk "2" [] [] []), ("a", Build.mk "1-2" [] [] [])]

/-- Package a with a self-dependency and a real dependency on b. -/
def ds8 : List (String × Build) :=
  [("a", Build.mk "1" ["a-1", "b-1"] [] []), ("b", Build.mk "1" [] [] [])]

/-- The spec's §8 scenario: descriptor e lists dependency z with no node. -/
def ds5 : List (String × Build) := [("e", Build.mk "1" ["z"] [] [])]

/-- A corrupted scheduler state: dependent w already marked succeeded while
its dependency libx11-1.6.6 is still in flight. -/
def stC9 : SchedState := ⟨["libx11-1.6.6"], [("w", true)]⟩

/-! ### Claims -/

/-- Claim C1: on every graph the initial dispatch set is exactly the nodes
with zero outgoing edges, and on every reachable scheduler state every
package sitting in the dispatch queue has all of its dependencies marked
successfully built — a package is dispatched only after all of its
dependencies reached Succeeded (scheduler.run lines 196-202; canBuild lines
255-266). -/
theorem c1_dispatch_after_deps {g : DGraph} {byName : NameMap}
    (succeeds : String → Bool) (hwf : SchedWF g byName) :
    (initState g).queued =
      (g.nodes.filter (fun n => (outNbrs g n.id).isEmpty)).map Node.name ∧
    ∀ (choices : List Nat) (st : SchedState),
      runTrace g byName succeeds (initState g) choices = .ok st →
      ∀ m ∈ g.nodes, m.name ∈ st.queued →
        ∀ d ∈ outNbrs g m.id, lookupB st.built d.name = some true := by
  refine ⟨rfl, ?_⟩
  intro choices st hrun m hm hq d hd
  exact (inv_run hwf choices _ st (inv_init hwf) hrun).i1b m hm hq d hd

theorem c1_witness :
    SchedWF gD byNameD ∧ lookupB stD1.built "a" = some true :=
  ⟨by decide,
    (c1_dispatch_after_deps distriSucceeds (by decide : SchedWF gD byNameD)).2
      [0] stD1 (by decide) ⟨1, "b"⟩ (by decide) (by decide) ⟨0, "a"⟩ (by decide)⟩

/-- Claim C2: in every completed run, every transitive dependent Q of a
package P whose build fails ends recorded as failed in the `built` map, and
Q is never dispatched to a worker (never enters the work queue), so its
build action is never invoked (scheduler.run lines 205-220, markFailed
lines 242-253). -/
theorem c2_failure_cascade {g : DGraph} {byName : NameMap}
    (succeeds : String → Bool) (P Q : Node) (choices : List Nat)
    (st : SchedState) (hwf : SchedWF g byName) (hP : P ∈ g.nodes)
    (hQ : Q ∈ g.nodes) (hfail : succeeds P.name = false)
    (hdep : Reaches g Q.id P.id)
    (hrun : runTrace g byName succeeds (initState g) choices = .ok st)
    (hterm : g.nodes.length ≤ st.built.length) :
    lookupB st.built Q.name = some false ∧
    ∀ (k : Nat) (st' : SchedState),
      runTrace g byName succeeds (initState g) (choices.take k) = .ok st' →
      Q.name ∉ st'.queued := by
  have hinv := inv_run hwf choices _ st (inv_init hwf) hrun
  have hlen : st.built.length = g.nodes.length :=
    le_antisymm (built_le hinv) hterm
  obtain ⟨hqe, hcov⟩ := terminal_facts hwf hinv hlen
  constructor
  · obtain ⟨bv, hbv⟩ := hcov Q hQ
    cases bv with
    | false => exact hbv
    | true =>
      have hPt := i2_trans hwf hinv hQ hP hdep hbv
      have hst := hinv.kTrue P hP hPt
      rw [hfail] at hst
      cases hst
  · intro k st' hrun' hqmem
    have hinv' := inv_run hwf _ _ st' (inv_init hwf) hrun'
    have hPt := queued_reach_true hwf hinv' hQ hqmem hP hdep
    have hst := hinv'.kTrue P hP hPt
    rw [hfail] at hst
    cases hst

theorem c2_witness :
    SchedWF gL byNameL ∧ distriSucceeds "libx11-1.6.6" = false ∧
    lookupB stL1.built "w" = some false ∧ "w" ∉ (initState gL).queued := by
  have h := c2_failure_cascade distriSucceeds ⟨0, "libx11-1.6.6"⟩ ⟨1, "w"⟩
    [0] stL1 (by decide : SchedWF gL byNameL) (by decide) (by decide)
    (by decide) (Reaches.single (by decide)) (by decide) (by decide)
  exact ⟨by decide, by decide, h.1, h.2 0 (initState gL) rfl⟩

/-- Claim C3: on every acyclic graph, every reachable scheduler state can
take a step whenever some node lacks a terminal outcome (so an individual
build failure never aborts the run), the run can always be completed, and
at completion every node has exactly one recorded outcome and
succeeded + failed equals the total node count (scheduler.run lines
179-240). -/
theorem c3_run_completes {g : DGraph} {byName : NameMap}
    (succeeds : String → Bool) (rank : Int → Nat)
    (hwf : SchedWF g byName) (hrank : ValidRank g rank) :
    ∀ (choices : List Nat) (st : SchedState),
      runTrace g byName succeeds (initState g) choices = .ok st →
      (st.built.length < g.nodes.length →
        st.queued ≠ [] ∧ ∀ i, i < st.queued.length →
          ∃ st', schedStep g byName succeeds st i = .ok st') ∧
      ∃ ext st', runTrace g byName succeeds st ext = .ok st' ∧
        st'.built.length = g.nodes.length ∧ st'.queued = [] ∧
        (keysB st'.built).Nodup ∧
        (∀ m ∈ g.nodes, ∃ bv, lookupB st'.built m.name = some bv) ∧
        (summarize st'.built).succeeded + (summarize st'.built).failed =
          g.nodes.length := by
  intro choices st hrun
  have hinv := inv_run hwf choices _ st (inv_init hwf) hrun
  constructor
  · intro hlen
    exact ⟨progress hwf hrank hinv hlen, fun i hi => step_ok hwf hrank hinv hi⟩
  · obtain ⟨ext, st', hrun', hlen'⟩ :=
      complete_from hwf hrank g.nodes.length st hinv (by omega)
    have hinv' := inv_run hwf ext _ st' hinv hrun'
    obtain ⟨hqe, hcov⟩ := terminal_facts hwf hinv' hlen'
    obtain ⟨hsum, htot⟩ := summarize_counts st'.built
    exact ⟨ext, st', hrun', hlen', hqe, hinv'.kNodup, hcov, by omega⟩

theorem c3_witness :
    SchedWF gD byNameD ∧ ValidRank gD rankD ∧ stD1.queued ≠ [] :=
  ⟨by decide, by decide,
    (((c3_run_completes distriSucceeds rankD (by decide : SchedWF gD byNameD)
      (by decide)) [0] stD1 (by decide)).1 (by decide)).1⟩

/-- Claim C4: when the graph is unorderable, the cycle resolver removes all
outgoing edges of every node of a cyclic component (and only those), then
re-attempts the topological order exactly once, returning the fatal
unbreakable-cycle error to the caller — before any build starts — if the
graph is still unorderable (batch lines 135-154). -/
theorem c4_cycle_resolver (g : DGraph) (hcyc : unorderableB g = true) :
    (∀ n ∈ g.nodes, cyclicB g n = true → outNbrs (stripCyclic g) n.id = []) ∧
    (∀ e : Int × Int, e ∈ (stripCyclic g).edges ↔ e ∈ g.edges ∧
      ∀ n ∈ g.nodes, n.id = e.1 → cyclicB g n = false) ∧
    breakCycles g = (if unorderableB (stripCyclic g) = true then
      .error .unbreakable else .ok (stripCyclic g)) ∧
    ∀ (ds : List (String × Build)) (choices : List Nat),
      buildGraph ds = .ok g → breakCycles g = .error .unbreakable →
      batch ds choices = .error .unbreakableCycle :=
  ⟨fun n hn hc => stripCyclic_outNbrs g n hn hc,
    fun e => mem_stripCyclic_edges g e, breakCycles_unorderable g hcyc,
    fun _ _ hok hc => batch_cycle_error hok hc⟩

theorem c4_witness :
    unorderableB gXY = true ∧ outNbrs (stripCyclic gXY) 0 = [] ∧
    outNbrs (stripCyclic gXY) 1 = [] ∧
    breakCycles gXY = .ok (DGraph.mk gXY.nodes []) := by
  have h := c4_cycle_resolver gXY (by decide)
  refine ⟨by decide, h.1 ⟨0, "x"⟩ (by decide) (by decide),
    h.1 ⟨1, "y"⟩ (by decide) (by decide), ?_⟩
  rw [h.2.2.1]
  decide

/-- Claim C5: whenever some descriptor lists a dependency name with no
corresponding node, graph construction fails with the fatal
UnresolvedDependency error (in the Go code a nil-map lookup makes SetEdge
panic at batch.go line 115) and the whole batch pipeline returns that error
without the scheduler ever being invoked. -/
theorem c5_unresolved_dependency (ds : List (String × Build)) (pkg : String)
    (b : Build) (dep : String) (hmem : (pkg, b) ∈ ds)
    (hdep : dep ∈ mergedDeps b) (hne : dep ≠ nodeName pkg b)
    (hmiss : ∀ n ∈ mkNodes ds, n.name ≠ dep) :
    (∃ d', buildGraph ds = .error (.unresolvedDependency d')) ∧
    ∀ choices, ∃ d',
      batch ds choices = .error (.construction (.unresolvedDependency d')) := by
  have hbn : ∀ pb ∈ ds, ∃ v,
      lookupN (mkByName ds) (nodeName pb.1 pb.2) = some v := by
    intro pb hpb
    exact mkByName_complete ds hpb
  have hlmiss : lookupN (mkByName ds) dep = none := by
    cases hl : lookupN (mkByName ds) dep with
    | none => rfl
    | some v =>
      obtain ⟨hv, hvn⟩ := mkByName_sound ds dep v hl
      exact absurd hvn (hmiss v hv)
  obtain ⟨d', hd'⟩ := bge_missing ds [] hbn ⟨(pkg, b), hmem, dep, hdep, hne, hlmiss⟩
  have hbuild : buildGraph ds = .error (.unresolvedDependency d') := by
    unfold buildGraph
    rw [hd']
  exact ⟨⟨d', hbuild⟩, fun _ => ⟨d', batch_construction_error hbuild⟩⟩

theorem c5_witness :
    (∃ d', buildGraph ds5 = .error (.unresolvedDependency d')) ∧
    ∃ d', batch ds5 [] = .error (.construction (.unresolvedDependency d')) :=
  ⟨(c5_unresolved_dependency ds5 "e" (Build.mk "1" ["z"] [] []) "z"
      (by decide) (by decide) (by decide) (by decide)).1,
   (c5_unresolved_dependency ds5 "e" (Build.mk "1" ["z"] [] []) "z"
      (by decide) (by decide) (by decide) (by decide)).2 []⟩

/-- Claim C6 (counterexample): the failure cascade has no visited set, so in
the diamond graph it visits the shared dependent d once per path — twice —
refuting "visits each transitive dependent exactly once". -/
theorem c6_counterexample :
    (markFailed gD 5 [("a", false)] (Node.mk 0 "a")).map
      (fun r => r.2) = .ok ["b", "d", "c", "d"] ∧
    (markFailed gD 5 [("a", false)] (Node.mk 0 "a")).map
      (fun r => r.2.count "d") = .ok 2 := by
  constructor
  · rfl
  · rfl

/-- Claim C6 (amended): the cascade may visit a dependent several times —
once per path — but marking is idempotent and re-visiting an already-failed
node is a no-op rather than an error: when no involved node is marked
succeeded and the graph is acyclic, the cascade returns ok and the final
map marks exactly the transitive dependents failed, leaving every other
entry unchanged (markFailed lines 242-253). -/
theorem c6_cascade_amended {g : DGraph} (rank : Int → Nat) (b : BuiltMap)
    (n : Node) (fuel : Nat)
    (hEdges : ∀ e ∈ g.edges, ∃ a ∈ g.nodes, a.id = e.1)
    (hid : (g.nodes.map Node.id).Nodup)
    (hrank : ValidRank g rank) (hn : n ∈ g.nodes)
    (hfuel : g.nodes.length + 1 ≤ fuel + rank n.id)
    (hNoTrue : ∀ x ∈ g.nodes, lookupB b x.name ≠ some true) :
    ∃ r, markFailed g fuel b n = .ok r ∧
      (∀ x ∈ g.nodes, Reaches g x.id n.id → lookupB r.1 x.name = some false) ∧
      (∀ k, lookupB r.1 k = lookupB b k ∨ (lookupB r.1 k = some false ∧
        ∃ x ∈ g.nodes, x.name = k ∧ Reaches g x.id n.id)) := by
  obtain ⟨r, hr⟩ := markFailed_ok g hrank fuel b n hn hfuel
    (fun x hx _ => hNoTrue x hx)
  exact ⟨r, hr, markFailed_marksAll g hEdges hid fuel b n r hr,
    markFailed_marksOnly g fuel b n r hr⟩

theorem c6_witness :
    (markFailed gD 5 [("a", false)] (Node.mk 0 "a")).map
      (fun r => (lookupB r.1 "d", lookupB r.1 "a")) =
      .ok (some false, some false) := by
  obtain ⟨r, hr, hmarks, honly⟩ := c6_cascade_amended rankD [("a", false)]
    (Node.mk 0 "a") 5
    (by decide : ∀ e ∈ gD.edges, ∃ a ∈ gD.nodes, a.id = e.1)
    (by decide) (by decide) (by decide) (by decide) (by decide)
  have hre : Reaches gD 3 0 :=
    Reaches.step (show ((3 : Int), (1 : Int)) ∈ gD.edges by decide)
      (Reaches.single (show ((1 : Int), (0 : Int)) ∈ gD.edges by decide))
  have hd : lookupB r.1 "d" = some false := hmarks (Node.mk 3 "d") (by decide) hre
  have ha : lookupB r.1 "a" = some false := by
    rcases honly "a" with h | h
    · rw [h]
      rfl
    · exact h.1
  rw [hr]
  show Except.ok (lookupB r.1 "d", lookupB r.1 "a") =
    Except.ok ((some false : Option Bool), (some false : Option Bool))
  rw [hd, ha]

/-- Claim C7 (counterexample): two descriptors producing the same node name
"a-1-2" are both inserted into the graph as distinct nodes with no error —
the builder neither rejects nor deduplicates the collision. -/
theorem c7_counterexample :
    buildGraph ds7 = .ok (DGraph.mk [Node.mk 0 "a-1-2", Node.mk 1 "a-1-2"] []) ∧
    ¬((mkNodes ds7).map Node.name).Nodup := by
  constructor
  · decide
  · decide

/-- Claim C7 (amended): the graph builder does not enforce uniqueness of
`<package>-<version>`: it inserts exactly one node per descriptor (with the
descriptor's index as id) regardless of name collisions, and the byName
index retains, for each name, the most recently inserted node carrying it
(batch lines 69-87). -/
theorem c7_amended (ds : List (String × Build)) :
    (mkNodes ds).map Node.name = ds.map (fun p => nodeName p.1 p.2) ∧
    (mkNodes ds).length = ds.length ∧
    ∀ k, lookupN (mkByName ds) k = lastNamed (mkNodes ds) k :=
  ⟨mkNodes_names ds, mkNodes_length ds, fun k => lookupN_mkByName ds k⟩

/-- Claim C8: a dependency entry equal to the package's own name-version is
silently dropped during construction — no self-edge is ever inserted and no
error raised — while every other entry of the merged dependency set (build,
builder and runtime dependencies) becomes an edge to the dependency's node
(batch lines 106-116). -/
theorem c8_self_dep_dropped (ds : List (String × Build)) (g : DGraph)
    (hok : buildGraph ds = .ok g) :
    (∀ e ∈ g.edges, e.1 ≠ e.2) ∧
    ∀ pb ∈ ds, ∀ dep ∈ mergedDeps pb.2, dep ≠ nodeName pb.1 pb.2 →
      ∃ nf nt, lookupN (mkByName ds) (nodeName pb.1 pb.2) = some nf ∧
        lookupN (mkByName ds) dep = some nt ∧ (nf.id, nt.id) ∈ g.edges := by
  have hbge : ∃ es, buildGraphEdges (mkByName ds) ds [] = .ok es ∧
      g = ⟨mkNodes ds, es⟩ := by
    unfold buildGraph at hok
    cases hb : buildGraphEdges (mkByName ds) ds [] with
    | error e =>
      rw [hb] at hok
      cases hok
    | ok es =>
      rw [hb] at hok
      cases hok
      exact ⟨es, rfl, rfl⟩
  obtain ⟨es, hb, hg⟩ := hbge
  constructor
  · intro e he
    refine bge_all (fun e => e.1 ≠ e.2) ?_ ds [] es hb
      (fun e he' => absurd he' (List.not_mem_nil e)) e ?_
    · intro own nf nt dep hf ht hne hid
      obtain ⟨hfmem, hfname⟩ := mkByName_sound ds own nf hf
      obtain ⟨htmem, htname⟩ := mkByName_sound ds dep nt ht
      have heq : nf = nt :=
        List.inj_on_of_nodup_map (mkNodes_ids_nodup ds) hfmem htmem hid
      rw [heq, htname] at hfname
      exact hne hfname
    · rw [hg] at he
      exact he
  · intro pb hpb dep hdep hne
    obtain ⟨nf, nt, hf, ht, hedge⟩ := bge_adds ds [] es hb pb hpb dep hdep hne
    refine ⟨nf, nt, hf, ht, ?_⟩
    rw [hg]
    exact hedge

theorem c8_witness :
    buildGraph ds8 = .ok (DGraph.mk [Node.mk 0 "a-1", Node.mk 1 "b-1"] [(0, 1)]) ∧
    ((0 : Int), (0 : Int)) ∉ (DGraph.mk [Node.mk 0 "a-1", Node.mk 1 "b-1"]
      [((0 : Int), (1 : Int))]).edges ∧
    ((0 : Int), (1 : Int)) ∈ (DGraph.mk [Node.mk 0 "a-1", Node.mk 1 "b-1"]
      [((0 : Int), (1 : Int))]).edges := by
  have h := c8_self_dep_dropped ds8
    (DGraph.mk [Node.mk 0 "a-1", Node.mk 1 "b-1"] [(0, 1)]) (by decide)
  refine ⟨by decide, fun hc => h.1 _ hc rfl, by decide⟩

/-- Claim C9: if the failure cascade finds a dependent already marked
Succeeded in the built map, the run aborts immediately with the fatal BUG
error (log.Fatalf at batch.go line 248) rather than absorbing the
inconsistency: markFailed returns the fatal error, the scheduler tick
errors out, and the whole remaining trace errors out. -/
theorem c9_bug_abort {g : DGraph} {byName : NameMap}
    (succeeds : String → Bool) (rank : Int → Nat) (st : SchedState) (i : Nat)
    (pkg : String) (n d : Node) (hwf : SchedWF g byName)
    (hrank : ValidRank g rank) (hq : st.queued[i]? = some pkg)
    (hs : succeeds pkg = false) (hn : lookupN byName pkg = some n)
    (hd : d ∈ g.nodes) (hreach : Reaches g d.id n.id)
    (htrue : lookupB (setB st.built pkg false) d.name = some true) :
    markFailed g (schedFuel g) (setB st.built pkg false) n = .error .fatalBug ∧
    schedStep g byName succeeds st i = .error .cascadeBug ∧
    ∀ rest, runTrace g byName succeeds st (i :: rest) = .error .cascadeBug := by
  obtain ⟨hnN, _⟩ := byName_sound hwf hn
  have hnotok : ∀ r, markFailed g (schedFuel g) (setB st.built pkg false) n ≠ .ok r := by
    intro r hr
    have hmono := markFailed_trueMono g _ _ _ _ hr d.name htrue
    have hmarks := markFailed_marksAll g (fun e he => (hwf.2.2.1 e he).1)
      hwf.2.1 _ _ _ _ hr d hd hreach
    rw [hmono] at hmarks
    cases hmarks
  have hnofuel := markFailed_no_fuelOut g hrank (schedFuel g)
    (setB st.built pkg false) n hnN (by unfold schedFuel; omega)
  have hfb : markFailed g (schedFuel g) (setB st.built pkg false) n =
      .error .fatalBug := by
    cases hmf : markFailed g (schedFuel g) (setB st.built pkg false) n with
    | ok r => exact absurd hmf (hnotok r)
    | error e =>
      cases e with
      | fatalBug => rfl
      | fuelOut => exact absurd hmf hnofuel
  have hstep : schedStep g byName succeeds st i = .error .cascadeBug := by
    unfold schedStep
    rw [hq]
    dsimp only
    rw [hn]
    dsimp only
    rw [hs, if_neg (by simp), hfb]
  refine ⟨hfb, hstep, fun rest => ?_⟩
  rw [runTrace, hstep]

theorem c9_witness :
    SchedWF gL byNameL ∧
    schedStep gL byNameL distriSucceeds stC9 0 = .error .cascadeBug :=
  ⟨by decide,
    (c9_bug_abort distriSucceeds rankL stC9 0 "libx11-1.6.6"
      ⟨0, "libx11-1.6.6"⟩ ⟨1, "w"⟩ (by decide : SchedWF gL byNameL)
      (by decide) (by decide) (by decide) (by decide) (by decide)
      (Reaches.single (by decide)) (by decide)).2.1⟩

/-- Claim C10: the build action run by the scheduler's workers is the
hard-coded stub of batch.go line 190 — it reports success exactly when the
package name is not "libx11-1.6.6", so per-package outcomes are determined
solely by package names and libx11-1.6.6 always fails.  (The random sleep
only delays the result.)  The `batch` pipeline instantiates the scheduler
with exactly this function. -/
theorem c10_hardcoded_stub :
    (∀ pkg : String, distriSucceeds pkg = true ↔ pkg ≠ "libx11-1.6.6") ∧
    distriSucceeds "libx11-1.6.6" = false ∧
    ∀ (g : DGraph) (byName : NameMap) (st : SchedState) (choices : List Nat),
      runTrace g byName distriSucceeds st choices =
        runTrace g byName (fun pkg => pkg != "libx11-1.6.6") st choices := by
  refine ⟨?_, by decide, fun _ _ _ _ => rfl⟩
  intro pkg
  unfold distriSucceeds
  exact bne_iff_ne

end Distri
